import Mathlib

/-!
# Cholesky decomposition of a 32×32 matrix (`src/src/cholesky.c`)

Shallow embedding of `cholesky_decompose_32x32` and of the test helpers of
`src/tests/cholesky/test_helpers.c`, followed by the properties of the
decomposition.

Modelling choices.
* In the first model a `double` is an element of a linearly ordered field `α`;
  the theorems that need the square root take `α = ℝ` and `sqrt = Real.sqrt`.
  The definitions are generic in `α` and in the square-root function, so they
  stay executable.
* In the second model (`F64`, `cholesky_decompose_32x32_f64`) a `double` is an
  IEEE-754 binary64 value with round to nearest, ties to even; it serves for
  the properties that hold in exact arithmetic and fail on doubles.
* A `double[32][32]` buffer is a function `Nat → Nat → α`; only the cells with
  both indices below `N = 32` belong to the array.
* A call returns the pair of its return code and of the final content of the
  output buffer `L`.
-/

namespace Cholesky

variable {α : Type} [LinearOrderedField α]

set_option linter.unusedSectionVars false

/-- `#define N 32`. -/
def N : Nat := 32

/-- `#define EPSILON 1e-10`. -/
def EPSILON : α := 1e-10

/-- `#define TEST_TOLERANCE 1e-9` (`test_helpers.h`). -/
def TEST_TOLERANCE : α := 1e-9

/-- A `double[32][32]` buffer, addressed by row and column. -/
abbrev Mat (α : Type) := Nat → Nat → α

/-- The assignment `L[r][c] = v`. -/
def store (L : Mat α) (r c : Nat) (v : α) : Mat α :=
  fun r' c' => if r' = r ∧ c' = c then v else L r' c'

/-- Inner loop of the symmetry validation, `cholesky.c` lines 19-23: `true` when
some `j` of the list has `fabs(A[i][j] - A[j][i]) > EPSILON` (the `return 1`). -/
def symmetryInner (A : Mat α) (i : Nat) : List Nat → Bool
  | [] => false
  | j :: js => if |A i j - A j i| > EPSILON then true else symmetryInner A i js

/-- Outer loop of the symmetry validation, `cholesky.c` lines 18-24, with `j`
running over `i + 1 .. N - 1`: `true` when the function returns 1. -/
def symmetryOuter (A : Mat α) : List Nat → Bool
  | [] => false
  | i :: is =>
    if symmetryInner A i (List.range' (i + 1) (N - (i + 1))) then true
    else symmetryOuter A is

/-- Value of `sum` after `sum = 0.0; for (k = 0; k < n; k++) sum += L[r1][k] * L[r2][k];`
(`cholesky.c` lines 29-32 with `r1 = r2 = i`, lines 45-48 with `r1 = j`, `r2 = i`). -/
def dotLoop (L : Mat α) (r1 r2 : Nat) : Nat → α
  | 0 => 0
  | k + 1 => dotLoop L r1 r2 k + L r1 k * L r2 k

/-- Loop over the rows `j` below the diagonal of column `i`, `cholesky.c` lines
44-58.  The code is 3 when the division guard fires and 0 when the loop runs to
its end. -/
def offDiagLoop (A : Mat α) (i : Nat) : List Nat → Mat α → Int × Mat α
  | [], L => (0, L)
  | j :: js, L =>
    let sum := dotLoop L j i i
    let numerator := A j i - sum
    if |L i i| < EPSILON then (3, L)
    else offDiagLoop A i js (store L j i (numerator / L i i))

/-- Loop zeroing the part of column `i` above the diagonal, `cholesky.c` lines 64-66. -/
def zeroLoop (i : Nat) : List Nat → Mat α → Mat α
  | [], L => L
  | j :: js, L => zeroLoop i js (store L j i 0)

/-- Loop over the columns, `cholesky.c` lines 27-69. -/
def columnLoop (sqrt : α → α) (A : Mat α) : List Nat → Mat α → Int × Mat α
  | [], L => (0, L)
  | i :: is, L =>
    let sum := dotLoop L i i i
    let diag_value := A i i - sum
    if diag_value ≤ EPSILON then (2, L)
    else
      let L1 := store L i i (sqrt diag_value)
      let r := offDiagLoop A i (List.range' (i + 1) (N - (i + 1))) L1
      if r.1 ≠ 0 then r
      else columnLoop sqrt A is (zeroLoop i (List.range i) r.2)

/-- The function `cholesky_decompose_32x32` of `cholesky.c`: return code and
final content of the output buffer. -/
def cholesky_decompose_32x32 (sqrt : α → α) (A L : Mat α) : Int × Mat α :=
  if symmetryOuter A (List.range N) then (1, L)
  else columnLoop sqrt A (List.range N) L

/-! ### Test helpers (`src/tests/cholesky/test_helpers.c`) -/

/-- Function `matrix_transpose_32x32`: `At[i][j] = A[j][i]` on the 32×32 cells. -/
def matrix_transpose_32x32 (A At : Mat α) : Mat α :=
  fun i j => if i < N ∧ j < N then A j i else At i j

/-- Value of `C[i][j]` after `C[i][j] = 0.0; for (k = 0; k < n; k++) C[i][j] += A[i][k] * B[k][j];`. -/
def mulLoop (A B : Mat α) (i j : Nat) : Nat → α
  | 0 => 0
  | k + 1 => mulLoop A B i j k + A i k * B k j

/-- Function `matrix_multiply_32x32`: `C = A × B` on the 32×32 cells. -/
def matrix_multiply_32x32 (A B C : Mat α) : Mat α :=
  fun i j => if i < N ∧ j < N then mulLoop A B i j N else C i j

/-- Function `generate_identity_matrix`. -/
def generate_identity_matrix (A : Mat α) : Mat α :=
  fun i j => if i < N ∧ j < N then (if i = j then 1 else 0) else A i j

/-- The product `L × Lᵗ` as `assert_decomposition_correct` and
`generate_random_spd_matrix` compute it: transpose, then multiply.  The local
buffers `Lt` and the result start from arbitrary content `Lt0`, `C0`. -/
def reconstruct (L Lt0 C0 : Mat α) : Mat α :=
  matrix_multiply_32x32 L (matrix_transpose_32x32 L Lt0) C0

/-- Leading principal minor: determinant of the top-left `(i+1)×(i+1)` block. -/
def leadingMinor (A : Mat α) (i : Nat) : α :=
  Matrix.det (Matrix.of (fun a b : Fin (i + 1) => A a.val b.val))

/-! ### Specification-level definitions -/

/-- The content of column `i` after its iteration of the column loop has run to
the end, from the buffer `L` at the start of the iteration. -/
def columnResult (sqrt : α → α) (A L : Mat α) (i : Nat) : Mat α :=
  fun r c =>
    if c = i then
      if r < i then 0
      else if r = i then sqrt (A i i - dotLoop L i i i)
      else if r < N then (A r i - dotLoop L r i i) / sqrt (A i i - dotLoop L i i i)
      else L r c
    else L r c

/-- Column `i` of `L` satisfies the Cholesky-Crout equations for `A`: the pivot
passes the check, the diagonal entry is its square root, the entries below are
the quotients and the entries above are zero. -/
def CroutColumn (sqrt : α → α) (A L : Mat α) (i : Nat) : Prop :=
  EPSILON < A i i - dotLoop L i i i ∧
  L i i = sqrt (A i i - dotLoop L i i i) ∧
  (∀ r, i < r → r < N → L r i = (A r i - dotLoop L r i i) / L i i) ∧
  (∀ r, r < i → L r i = 0)

/-! ### The Cholesky-Crout reference -/

/-- The reference factor `R` of the Cholesky-Crout recursion, by recursion on the
column index `i`: `R[i][i] = sqrt(p_i)` with `p_i = A[i][i] - Σ_{k<i} R[i][k]^2`,
and `R[j][i] = (A[j][i] - Σ_{k<i} R[j][k] * R[i][k]) / R[i][i]` for `j > i`.
The cells above the diagonal, which the recursion does not define, are 0. -/
def croutReference (sqrt : α → α) (A : Mat α) (j i : Nat) : α :=
  if j = i then
    sqrt (A i i - ∑ k : Fin i, croutReference sqrt A i k.val ^ 2)
  else if i < j then
    (A j i - ∑ k : Fin i, croutReference sqrt A j k.val * croutReference sqrt A i k.val)
      / sqrt (A i i - ∑ k : Fin i, croutReference sqrt A i k.val ^ 2)
  else 0
termination_by i

/-- The reference pivot `p_i = A[i][i] - Σ_{k<i} R[i][k]^2`. -/
def croutPivot (sqrt : α → α) (A : Mat α) (i : Nat) : α :=
  A i i - ∑ k : Fin i, croutReference sqrt A i k.val ^ 2

/-! ### The block-diagonal test matrix (`test_known_exact_decomposition`) -/

/-- One iteration of the block loop of `test_known_exact_decomposition`
(`test_correctness.c` lines 187-196): with `i = block * 2` and `j = block * 2 + 1`,
`A[i][i] = 4.0; A[i][j] = 1.0; A[j][i] = 1.0; A[j][j] = 4.0;`. -/
def blockStep (A : Mat α) (block : Nat) : Mat α :=
  store (store (store (store A (block * 2) (block * 2) 4) (block * 2) (block * 2 + 1) 1)
    (block * 2 + 1) (block * 2) 1) (block * 2 + 1) (block * 2 + 1) 4

/-- The matrix built by `test_known_exact_decomposition`: `memset(A, 0, ...)`, then
the block loop for `block = 0 .. N/2 - 1`. -/
def known_exact_matrix : Mat α :=
  (List.range (N / 2)).foldl blockStep (fun _ _ => 0)

/-- The factor that C11 states for the block-diagonal matrix: 2 and `sqrt(15)/2`
on the diagonal at even and odd indices, 1/2 below the diagonal inside each
block, 0 elsewhere. -/
def known_exact_factor (sqrt : α → α) : Mat α :=
  fun r c =>
    if r = c then (if r % 2 = 0 then 2 else sqrt 15 / 2)
    else if r = c + 1 ∧ c % 2 = 0 then 1 / 2
    else 0

/-! ### The function called with one buffer for `A` and `L` -/

/-- Loop of `cholesky.c` lines 44-58 when `A` and `L` are the same buffer `B`:
the read of `A[j][i]` is a read of `B[j][i]`. -/
def offDiagLoopInPlace (i : Nat) : List Nat → Mat α → Int × Mat α
  | [], B => (0, B)
  | j :: js, B =>
    let sum := dotLoop B j i i
    let numerator := B j i - sum
    if |B i i| < EPSILON then (3, B)
    else offDiagLoopInPlace i js (store B j i (numerator / B i i))

/-- Loop of `cholesky.c` lines 27-69 when `A` and `L` are the same buffer `B`. -/
def columnLoopInPlace (sqrt : α → α) : List Nat → Mat α → Int × Mat α
  | [], B => (0, B)
  | i :: is, B =>
    let sum := dotLoop B i i i
    let diag_value := B i i - sum
    if diag_value ≤ EPSILON then (2, B)
    else
      let B1 := store B i i (sqrt diag_value)
      let r := offDiagLoopInPlace i (List.range' (i + 1) (N - (i + 1))) B1
      if r.1 ≠ 0 then r
      else columnLoopInPlace sqrt is (zeroLoop i (List.range i) r.2)

/-- The call `cholesky_decompose_32x32(B, B)`: the body of the function with
every access to `A` or `L` going to the single buffer `B`. -/
def cholesky_decompose_32x32_inplace (sqrt : α → α) (B : Mat α) : Int × Mat α :=
  if symmetryOuter B (List.range N) then (1, B)
  else columnLoopInPlace sqrt (List.range N) B

/-! ### The function in IEEE-754 binary64 arithmetic

The same function with `double` modelled as IEEE-754 binary64: round to nearest,
ties to even, every operation rounded by itself to double precision (no fused
multiply-add, no extended precision), `sqrt` correctly rounded, comparisons false
on NaN, signed zeros, gradual underflow, overflow to infinity. -/

/-- An IEEE-754 binary64 value: `finite s m e` is `(-1)^s * m * 2^e`, `inf s` is
the infinity of sign `s`, `nan` is a NaN. -/
inductive F64 where
  | finite (s : Bool) (m : Nat) (e : Int)
  | inf (s : Bool)
  | nan
  deriving DecidableEq

namespace F64

/-- Number of binary digits of `n`, computed with `fuel` halvings at most. -/
def bitLengthAux : Nat → Nat → Nat
  | 0, _ => 0
  | fuel + 1, n => if n = 0 then 0 else bitLengthAux fuel (n / 2) + 1

/-- Number of binary digits of `n`. -/
def bitLength (n : Nat) : Nat := bitLengthAux n n

/-- Round the exact value `(-1)^s * m * 2^e` to binary64, to nearest with ties to
even: 53 significant bits, least exponent `-1074`, overflow to infinity from
`2^1024` on. -/
def round (s : Bool) (m : Nat) (e : Int) : F64 :=
  if m = 0 then finite s 0 0
  else
    let shift : Int := max ((bitLength m : Int) - 53) (-1074 - e)
    if shift ≤ 0 then
      if (bitLength m : Int) + e > 1024 then inf s else finite s m e
    else
      let k := shift.toNat
      let q := m / 2 ^ k
      let r := m % 2 ^ k
      let half := 2 ^ (k - 1)
      let q' := if r > half ∨ (r = half ∧ q % 2 = 1) then q + 1 else q
      if (bitLength q' : Int) + (e + shift) > 1024 then inf s else finite s q' (e + shift)

/-- The integer `v * 2^(e - e0)` for `e0 ≤ e`, with the sign `s`. -/
def scaled (s : Bool) (m : Nat) (e e0 : Int) : Int :=
  if s then -((m * 2 ^ (e - e0).toNat : Nat) : Int) else ((m * 2 ^ (e - e0).toNat : Nat) : Int)

/-- Sign change. -/
def neg : F64 → F64
  | finite s m e => finite (!s) m e
  | inf s => inf (!s)
  | nan => nan

/-- IEEE addition. -/
def add : F64 → F64 → F64
  | nan, _ => nan
  | _, nan => nan
  | inf s, inf t => if s = t then inf s else nan
  | inf s, finite _ _ _ => inf s
  | finite _ _ _, inf t => inf t
  | finite s m e, finite t n f =>
    let e0 := min e f
    let v := scaled s m e e0 + scaled t n f e0
    if v = 0 then finite (s && t) 0 0
    else round (decide (v < 0)) v.natAbs e0

/-- IEEE subtraction: `x - y = x + (-y)`. -/
def sub (x y : F64) : F64 := add x (neg y)

/-- IEEE multiplication. -/
def mul : F64 → F64 → F64
  | nan, _ => nan
  | _, nan => nan
  | inf s, inf t => inf (xor s t)
  | inf s, finite t n _ => if n = 0 then nan else inf (xor s t)
  | finite s m _, inf t => if m = 0 then nan else inf (xor s t)
  | finite s m e, finite t n f => round (xor s t) (m * n) (e + f)

/-- Round the exact quotient `(-1)^s * (m / n) * 2^e`, `n ≠ 0`: 64 extra quotient
bits and a sticky bit stand for the exact quotient. -/
def roundQuot (s : Bool) (m n : Nat) (e : Int) : F64 :=
  let k := bitLength n + 64
  let q := (m * 2 ^ k) / n
  let r := (m * 2 ^ k) % n
  round s (2 * q + (if r = 0 then 0 else 1)) (e - k - 1)

/-- IEEE division. -/
def div : F64 → F64 → F64
  | nan, _ => nan
  | _, nan => nan
  | inf _, inf _ => nan
  | inf s, finite t _ _ => inf (xor s t)
  | finite s _ _, inf t => finite (xor s t) 0 0
  | finite s m e, finite t n f =>
    if n = 0 then (if m = 0 then nan else inf (xor s t))
    else roundQuot (xor s t) m n (e - f)

/-- Integer square root (floor) by binary search on the bits `b - 1 .. 0`. -/
def isqrtAux (n : Nat) : Nat → Nat → Nat
  | 0, acc => acc
  | b + 1, acc =>
    if (acc + 2 ^ b) * (acc + 2 ^ b) ≤ n then isqrtAux n b (acc + 2 ^ b) else isqrtAux n b acc

/-- Integer square root (floor). -/
def isqrt (n : Nat) : Nat := isqrtAux n (bitLength n) 0

/-- IEEE square root, correctly rounded: 64 extra bits and a sticky bit stand for
the exact root. -/
def sqrt : F64 → F64
  | nan => nan
  | inf s => if s then nan else inf false
  | finite s m e =>
    if m = 0 then finite s 0 0
    else if s then nan
    else
      let m2 := if e % 2 = 0 then m else 2 * m
      let e2 := if e % 2 = 0 then e else e - 1
      let n := m2 * 2 ^ 128
      let r := isqrt n
      round false (2 * r + (if r * r = n then 0 else 1)) (e2 / 2 - 64 - 1)

/-- The function `fabs`. -/
def abs : F64 → F64
  | finite _ m e => finite false m e
  | inf _ => inf false
  | nan => nan

/-- IEEE `<`: false when an operand is a NaN. -/
def lt : F64 → F64 → Bool
  | nan, _ => false
  | _, nan => false
  | inf s, inf t => s && !t
  | inf s, finite _ _ _ => s
  | finite _ _ _, inf t => !t
  | finite s m e, finite t n f => decide (scaled s m e (min e f) < scaled t n f (min e f))

/-- IEEE `<=`: false when an operand is a NaN. -/
def le : F64 → F64 → Bool
  | nan, _ => false
  | _, nan => false
  | inf s, inf t => s || !t
  | inf s, finite _ _ _ => s
  | finite _ _ _, inf t => !t
  | finite s m e, finite t n f => decide (scaled s m e (min e f) ≤ scaled t n f (min e f))

/-- The double of a natural number below `2^53`, and the rounded one otherwise. -/
def ofNat (n : Nat) : F64 := round false n 0

/-- The double nearest to the decimal `m * 10^(-d)`: a decimal literal of C. -/
def ofDecimal (m d : Nat) : F64 := roundQuot false m (10 ^ d) 0

/-- The literal `0.0`. -/
def zero : F64 := finite false 0 0

/-- The rational value of a finite double (0 for the infinities and NaN). -/
def toRat : F64 → ℚ
  | finite s m e => (if s then -1 else 1) * (m : ℚ) * (2 : ℚ) ^ e
  | inf _ => 0
  | nan => 0

/-- Whether the value is a finite double: `m * 2^e` with `m` below `2^53`, `e` at
least `-1074` and a magnitude below `2^1024`. -/
def isFinite : F64 → Bool
  | finite _ m e =>
    decide (m < 2 ^ 53) && decide (-1074 ≤ e) && decide ((bitLength m : Int) + e ≤ 1024)
  | inf _ => false
  | nan => false

end F64

/-- `#define EPSILON 1e-10` as a double. -/
def EPSILON_F64 : F64 := F64.ofDecimal 1 10

/-- Inner loop of the symmetry validation, `cholesky.c` lines 19-23, on doubles. -/
def symmetryInnerF (A : Mat F64) (i : Nat) : List Nat → Bool
  | [] => false
  | j :: js =>
    if F64.lt EPSILON_F64 (F64.abs (F64.sub (A i j) (A j i))) then true
    else symmetryInnerF A i js

/-- Outer loop of the symmetry validation, `cholesky.c` lines 18-24, on doubles. -/
def symmetryOuterF (A : Mat F64) : List Nat → Bool
  | [] => false
  | i :: is =>
    if symmetryInnerF A i (List.range' (i + 1) (N - (i + 1))) then true
    else symmetryOuterF A is

/-- Value of `sum` after `sum = 0.0; for (k = 0; k < n; k++) sum += L[r1][k] * L[r2][k];`
on doubles: the product is rounded, then the sum. -/
def dotLoopF (L : Mat F64) (r1 r2 : Nat) : Nat → F64
  | 0 => F64.zero
  | k + 1 => F64.add (dotLoopF L r1 r2 k) (F64.mul (L r1 k) (L r2 k))

/-- Loop of `cholesky.c` lines 44-58 on doubles. -/
def offDiagLoopF (A : Mat F64) (i : Nat) : List Nat → Mat F64 → Int × Mat F64
  | [], L => (0, L)
  | j :: js, L =>
    let sum := dotLoopF L j i i
    let numerator := F64.sub (A j i) sum
    if F64.lt (F64.abs (L i i)) EPSILON_F64 then (3, L)
    else offDiagLoopF A i js (store L j i (F64.div numerator (L i i)))

/-- Loop of `cholesky.c` lines 64-66 on doubles. -/
def zeroLoopF (i : Nat) : List Nat → Mat F64 → Mat F64
  | [], L => L
  | j :: js, L => zeroLoopF i js (store L j i F64.zero)

/-- Loop of `cholesky.c` lines 27-69 on doubles. -/
def columnLoopF (A : Mat F64) : List Nat → Mat F64 → Int × Mat F64
  | [], L => (0, L)
  | i :: is, L =>
    let sum := dotLoopF L i i i
    let diag_value := F64.sub (A i i) sum
    if F64.le diag_value EPSILON_F64 then (2, L)
    else
      let L1 := store L i i (F64.sqrt diag_value)
      let r := offDiagLoopF A i (List.range' (i + 1) (N - (i + 1))) L1
      if r.1 ≠ 0 then r
      else columnLoopF A is (zeroLoopF i (List.range i) r.2)

/-- The function `cholesky_decompose_32x32` of `cholesky.c` on doubles: return
code and final content of the output buffer. -/
def cholesky_decompose_32x32_f64 (A L : Mat F64) : Int × Mat F64 :=
  if symmetryOuterF A (List.range N) then (1, L)
  else columnLoopF A (List.range N) L

/-- Content of the buffer after the iteration of column `i` on doubles has run to
its end, from the buffer `L` at the start of the iteration. -/
def columnResultF (A L : Mat F64) (i : Nat) : Mat F64 :=
  fun r c =>
    if c = i then
      if r < i then F64.zero
      else if r = i then F64.sqrt (F64.sub (A i i) (dotLoopF L i i i))
      else if r < N then
        F64.div (F64.sub (A r i) (dotLoopF L r i i)) (F64.sqrt (F64.sub (A i i) (dotLoopF L i i i)))
      else L r c
    else L r c

/-- Column `i` of `T` is what the function computes on doubles from the columns
before it, and both checks pass. -/
def CroutColumnF (A T : Mat F64) (i : Nat) : Prop :=
  F64.le (F64.sub (A i i) (dotLoopF T i i i)) EPSILON_F64 = false ∧
  T i i = F64.sqrt (F64.sub (A i i) (dotLoopF T i i i)) ∧
  F64.lt (F64.abs (T i i)) EPSILON_F64 = false ∧
  (∀ r, i < r → r < N → T r i = F64.div (F64.sub (A r i) (dotLoopF T r i i)) (T i i)) ∧
  (∀ r, r < i → T r i = F64.zero)

/-! ### Two finite, exactly symmetric inputs that are not positive definite -/

/-- The matrix of the exact values of a matrix of finite doubles. -/
def valueMatrix (A : Mat F64) : Mat α :=
  fun i j => ((A i j).toRat : α)

/-- The identity matrix except `A[0][0] = 9`, `A[0][1] = A[1][0] = 2000003` and
`A[1][1] = 7281799623127495 / 16384`: its leading 2×2 minor is `-1/16384`. -/
def roundingInput : Mat F64 :=
  fun i j =>
    if i = 0 ∧ j = 0 then F64.finite false 9 0
    else if (i = 0 ∧ j = 1) ∨ (i = 1 ∧ j = 0) then F64.finite false 2000003 0
    else if i = 1 ∧ j = 1 then F64.finite false 7281799623127495 (-14)
    else if i = j then F64.finite false 1 0
    else F64.zero

/-- The factor computed on doubles from `roundingInput`: `L[0][0] = 3`,
`L[1][0] = 5726631651267925 / 2^33`, `L[1][1] = 2^-7`, 1 on the rest of the
diagonal and 0 elsewhere. -/
def roundingFactor : Mat F64 :=
  fun r c =>
    if r = c then
      if r = 0 then F64.finite false 6755399441055744 (-51)
      else if r = 1 then F64.finite false 4503599627370496 (-59)
      else F64.finite false 4503599627370496 (-52)
    else if r = 1 ∧ c = 0 then F64.finite false 5726631651267925 (-33)
    else F64.zero

/-- The identity matrix except `A[0][0] = 2^-14`, `A[0][2] = A[2][0] = 2^1020`
and `A[2][2] = -5`. -/
def overflowInput : Mat F64 :=
  fun i j =>
    if i = 0 ∧ j = 0 then F64.finite false 1 (-14)
    else if (i = 0 ∧ j = 2) ∨ (i = 2 ∧ j = 0) then F64.finite false 1 1020
    else if i = 2 ∧ j = 2 then F64.finite true 5 0
    else if i = j then F64.finite false 1 0
    else F64.zero

/-- The buffer computed on doubles from `overflowInput`: `L[0][0] = 2^-7`,
`L[2][0] = +inf`, `L[1][1] = 1`, `L[2][1] = NaN`, NaN on and below the diagonal
from column 2 on, 0 elsewhere. -/
def overflowFactor : Mat F64 :=
  fun r c =>
    if r < c then F64.zero
    else if c = 0 then
      if r = 0 then F64.finite false 4503599627370496 (-59)
      else if r = 2 then F64.inf false
      else F64.zero
    else if c = 1 then
      if r = 1 then F64.finite false 4503599627370496 (-52)
      else if r = 2 then F64.nan
      else F64.zero
    else F64.nan

/-! ### Basic facts on the constants and on `store` -/

theorem EPSILON_eq : (EPSILON : α) = 1 / 10 ^ 10 := by
  unfold EPSILON; norm_num

theorem EPSILON_pos : (0 : α) < EPSILON := by
  rw [EPSILON_eq]; positivity

theorem store_apply (L : Mat α) (r c : Nat) (v : α) (r' c' : Nat) :
    store L r c v r' c' = if r' = r ∧ c' = c then v else L r' c' := rfl

theorem store_same (L : Mat α) (r c : Nat) (v : α) : store L r c v r c = v := by
  simp [store]

theorem store_other_col (L : Mat α) (r c : Nat) (v : α) (r' c' : Nat) (h : c' ≠ c) :
    store L r c v r' c' = L r' c' := by
  simp [store, h]

theorem store_other_row (L : Mat α) (r c : Nat) (v : α) (r' c' : Nat) (h : r' ≠ r) :
    store L r c v r' c' = L r' c' := by
  simp [store, h]

/-! ### The symmetry validation -/

theorem symmetryInner_iff (A : Mat α) (i : Nat) (js : List Nat) :
    symmetryInner A i js = true ↔ ∃ j ∈ js, |A i j - A j i| > EPSILON := by
  induction js with
  | nil => simp [symmetryInner]
  | cons j js ih =>
    unfold symmetryInner
    by_cases h : |A i j - A j i| > EPSILON
    · simp only [h, if_true, true_iff]
      exact ⟨j, List.mem_cons_self _ _, h⟩
    · simp only [h, if_false, ih, List.mem_cons]
      constructor
      · rintro ⟨k, hk, hk'⟩
        exact ⟨k, Or.inr hk, hk'⟩
      · rintro ⟨k, hk | hk, hk'⟩
        · subst hk; exact absurd hk' h
        · exact ⟨k, hk, hk'⟩

theorem symmetryOuter_iff (A : Mat α) (is : List Nat) :
    symmetryOuter A is = true ↔
      ∃ i ∈ is, ∃ j, i < j ∧ j < N ∧ |A i j - A j i| > EPSILON := by
  induction is with
  | nil => simp [symmetryOuter]
  | cons i is ih =>
    unfold symmetryOuter
    have hin : symmetryInner A i (List.range' (i + 1) (N - (i + 1))) = true ↔
        ∃ j, i < j ∧ j < N ∧ |A i j - A j i| > EPSILON := by
      rw [symmetryInner_iff]
      constructor
      · rintro ⟨j, hj, hj'⟩
        rw [List.mem_range'_1] at hj
        exact ⟨j, by omega, by omega, hj'⟩
      · rintro ⟨j, h1, h2, hj'⟩
        refine ⟨j, ?_, hj'⟩
        rw [List.mem_range'_1]
        omega
    by_cases h : symmetryInner A i (List.range' (i + 1) (N - (i + 1))) = true
    · simp only [h, if_true, true_iff]
      exact ⟨i, List.mem_cons_self _ _, hin.mp h⟩
    · rw [if_neg h, ih]
      simp only [List.mem_cons]
      constructor
      · rintro ⟨k, hk, hk'⟩
        exact ⟨k, Or.inr hk, hk'⟩
      · rintro ⟨k, hk | hk, hk'⟩
        · subst hk; exact absurd (hin.mpr hk') h
        · exact ⟨k, hk, hk'⟩

/-- The function returns 1 exactly when some pair `i < j < N` differs by more
than `EPSILON`. -/
theorem symmetry_check_iff (A : Mat α) :
    symmetryOuter A (List.range N) = true ↔
      ∃ i j, i < j ∧ j < N ∧ |A i j - A j i| > EPSILON := by
  rw [symmetryOuter_iff]
  constructor
  · rintro ⟨i, _, j, h⟩
    exact ⟨i, j, h⟩
  · rintro ⟨i, j, h1, h2, h3⟩
    exact ⟨i, List.mem_range.mpr (by omega), j, h1, h2, h3⟩

/-! ### The accumulation loops -/

theorem dotLoop_congr (L L' : Mat α) (r1 r2 n : Nat)
    (h1 : ∀ k < n, L r1 k = L' r1 k) (h2 : ∀ k < n, L r2 k = L' r2 k) :
    dotLoop L r1 r2 n = dotLoop L' r1 r2 n := by
  induction n with
  | zero => rfl
  | succ n ih =>
    unfold dotLoop
    rw [ih (fun k hk => h1 k (by omega)) (fun k hk => h2 k (by omega)),
      h1 n (by omega), h2 n (by omega)]

theorem dotLoop_eq_sum (L : Mat α) (r1 r2 n : Nat) :
    dotLoop L r1 r2 n = ∑ k in Finset.range n, L r1 k * L r2 k := by
  induction n with
  | zero => simp [dotLoop]
  | succ n ih => rw [Finset.sum_range_succ, ← ih]; rfl

theorem dotLoop_comm (L : Mat α) (r1 r2 n : Nat) :
    dotLoop L r1 r2 n = dotLoop L r2 r1 n := by
  induction n with
  | zero => rfl
  | succ n ih => unfold dotLoop; rw [ih, mul_comm]

theorem mulLoop_transpose (L Lt0 : Mat α) (i j n : Nat) (hj : j < N) (hn : n ≤ N) :
    mulLoop L (matrix_transpose_32x32 L Lt0) i j n = dotLoop L i j n := by
  induction n with
  | zero => rfl
  | succ n ih =>
    unfold mulLoop dotLoop
    rw [ih (by omega)]
    have : matrix_transpose_32x32 L Lt0 n j = L j n := by
      unfold matrix_transpose_32x32
      rw [if_pos ⟨by omega, hj⟩]
    rw [this]

theorem reconstruct_apply (L Lt0 C0 : Mat α) (i j : Nat) (hi : i < N) (hj : j < N) :
    reconstruct L Lt0 C0 i j = dotLoop L i j N := by
  unfold reconstruct matrix_multiply_32x32
  rw [if_pos ⟨hi, hj⟩, mulLoop_transpose L Lt0 i j N hj le_rfl]

/-! ### One column of the decomposition -/

/-- The zeroing loop writes 0 in the listed rows of column `i` and nothing else. -/
theorem zeroLoop_apply (i : Nat) (js : List Nat) (L : Mat α) (r c : Nat) :
    zeroLoop i js L r c = if c = i ∧ r ∈ js then 0 else L r c := by
  induction js generalizing L with
  | nil => simp [zeroLoop]
  | cons j js ih =>
    unfold zeroLoop
    rw [ih, store_apply]
    by_cases hc : c = i
    · by_cases hr : r = j
      · simp [hc, hr]
      · simp [hc, hr]
    · simp [hc]

/-- The division guard fires at the first row when the pivot is too small. -/
theorem offDiagLoop_guard (A : Mat α) (i j : Nat) (js : List Nat) (L : Mat α)
    (h : |L i i| < EPSILON) : offDiagLoop A i (j :: js) L = (3, L) := by
  unfold offDiagLoop
  simp only [if_pos h]

/-- When the guard does not fire, the off-diagonal loop runs to its end and
writes the quotients in the listed rows of column `i`, nothing else. -/
theorem offDiagLoop_spec (A : Mat α) (i : Nat) (js : List Nat) (L : Mat α)
    (hi : i ∉ js) (hg : js ≠ [] → ¬ |L i i| < EPSILON) :
    ∃ L', offDiagLoop A i js L = (0, L') ∧
      ∀ r c, L' r c =
        if c = i ∧ r ∈ js then (A r i - dotLoop L r i i) / L i i else L r c := by
  induction js generalizing L with
  | nil => exact ⟨L, rfl, by simp⟩
  | cons j js ih =>
    have hji : j ≠ i := fun h => hi (by simp [h])
    have hi' : i ∉ js := fun h => hi (List.mem_cons_of_mem _ h)
    have hg0 : ¬ |L i i| < EPSILON := hg (by simp)
    have hii : store L j i ((A j i - dotLoop L j i i) / L i i) i i = L i i :=
      store_other_row _ _ _ _ _ _ (Ne.symm hji)
    obtain ⟨L', hrun, hL'⟩ := ih (store L j i ((A j i - dotLoop L j i i) / L i i)) hi'
      (fun _ => by rw [hii]; exact hg0)
    refine ⟨L', ?_, ?_⟩
    · unfold offDiagLoop
      simp only [if_neg hg0]
      exact hrun
    · intro r c
      rw [hL' r c, hii]
      have hdot : dotLoop (store L j i ((A j i - dotLoop L j i i) / L i i)) r i i
          = dotLoop L r i i :=
        dotLoop_congr _ _ _ _ _
          (fun k hk => store_other_col _ _ _ _ _ _ (by omega))
          (fun k hk => store_other_col _ _ _ _ _ _ (by omega))
      rw [hdot, store_apply]
      by_cases hc : c = i
      · by_cases hr : r = j
        · subst hr; subst hc
          by_cases hm : r ∈ js <;> simp [hm]
        · simp [hc, hr]
      · simp [hc]

/-- The pivot check fails: the column loop returns 2 and leaves the buffer as it is. -/
theorem columnLoop_cons_fail (sqrt : α → α) (A : Mat α) (i : Nat) (is : List Nat) (L : Mat α)
    (h : A i i - dotLoop L i i i ≤ EPSILON) :
    columnLoop sqrt A (i :: is) L = (2, L) := by
  unfold columnLoop
  simp only [if_pos h]

/-- The pivot check passes but the division guard fires: the column loop returns 3. -/
theorem columnLoop_cons_guard (sqrt : α → α) (A : Mat α) (i : Nat) (is : List Nat) (L : Mat α)
    (h : ¬ A i i - dotLoop L i i i ≤ EPSILON) (hi : i + 1 < N)
    (hg : |sqrt (A i i - dotLoop L i i i)| < EPSILON) :
    (columnLoop sqrt A (i :: is) L).1 = 3 := by
  unfold columnLoop
  simp only [if_neg h]
  have hr : List.range' (i + 1) (N - (i + 1)) = (i + 1) :: List.range' (i + 2) (N - (i + 2)) := by
    obtain ⟨m, hm⟩ : ∃ m, N - (i + 1) = m + 1 := ⟨N - (i + 2), by omega⟩
    rw [hm, List.range'_succ]
    congr 2
    omega
  rw [hr, offDiagLoop_guard _ _ _ _ _ (by rw [store_same]; exact hg)]
  simp

/-- Both checks pass: the iteration of column `i` fills the column and the loop
goes on with the next columns. -/
theorem columnLoop_cons_ok (sqrt : α → α) (A : Mat α) (i : Nat) (is : List Nat) (L : Mat α)
    (h : ¬ A i i - dotLoop L i i i ≤ EPSILON)
    (hg : i + 1 < N → ¬ |sqrt (A i i - dotLoop L i i i)| < EPSILON) :
    columnLoop sqrt A (i :: is) L = columnLoop sqrt A is (columnResult sqrt A L i) := by
  obtain ⟨L', hrun, hL'⟩ := offDiagLoop_spec A i (List.range' (i + 1) (N - (i + 1)))
    (store L i i (sqrt (A i i - dotLoop L i i i)))
    (by rw [List.mem_range'_1]; omega)
    (by
      intro hne
      rw [store_same]
      apply hg
      by_contra hlt
      apply hne
      have : N - (i + 1) = 0 := by omega
      rw [this]; rfl)
  have hstep : columnLoop sqrt A (i :: is) L
      = columnLoop sqrt A is (zeroLoop i (List.range i) L') := by
    conv_lhs => unfold columnLoop
    simp only [if_neg h, hrun, ne_eq, not_true_eq_false, if_false]
  rw [hstep]
  congr 1
  funext r c
  rw [zeroLoop_apply, hL' r c, store_same]
  have hdot : dotLoop (store L i i (sqrt (A i i - dotLoop L i i i))) r i i = dotLoop L r i i :=
    dotLoop_congr _ _ _ _ _
      (fun k hk => store_other_col _ _ _ _ _ _ (by omega))
      (fun k hk => store_other_col _ _ _ _ _ _ (by omega))
  rw [hdot, store_apply]
  simp only [List.mem_range, List.mem_range'_1]
  unfold columnResult
  by_cases hc : c = i
  · subst hc
    rcases lt_trichotomy r c with hlt | heq | hgt
    · simp [hlt]
    · subst heq; simp
    · have h1 : ¬ r < c := by omega
      have h2 : ¬ r = c := by omega
      have h3 : ¬ (c + 1 ≤ r ∧ r < c + 1 + (N - (c + 1))) ↔ ¬ r < N := by
        constructor
        · intro hx hy; exact hx ⟨by omega, by omega⟩
        · intro hx hy; exact hx (by omega)
      by_cases hN : r < N
      · have h4 : c + 1 ≤ r ∧ r < c + 1 + (N - (c + 1)) := ⟨by omega, by omega⟩
        simp [h1, h2, hN, h4]
      · have h4 : ¬ (c + 1 ≤ r ∧ r < c + 1 + (N - (c + 1))) := h3.mpr hN
        simp [h1, h2, hN, h4]
  · simp [hc]

/-! ### The column loop -/

theorem columnResult_other_col (sqrt : α → α) (A L : Mat α) (i r c : Nat) (h : c ≠ i) :
    columnResult sqrt A L i r c = L r c := by
  unfold columnResult; rw [if_neg h]

theorem range'_succ_cons (s n : Nat) : List.range' s (n + 1) = s :: List.range' (s + 1) n := by
  rw [List.range'_succ]

/-- The column loop never returns 1. -/
theorem columnLoop_code (sqrt : α → α) (A : Mat α) (is : List Nat) (L : Mat α) :
    (columnLoop sqrt A is L).1 = 0 ∨ (columnLoop sqrt A is L).1 = 2 ∨
      (columnLoop sqrt A is L).1 = 3 := by
  induction is generalizing L with
  | nil => left; rfl
  | cons i is ih =>
    by_cases h : A i i - dotLoop L i i i ≤ EPSILON
    · rw [columnLoop_cons_fail sqrt A i is L h]; right; left; rfl
    · by_cases hg : i + 1 < N → ¬ |sqrt (A i i - dotLoop L i i i)| < EPSILON
      · rw [columnLoop_cons_ok sqrt A i is L h hg]; exact ih _
      · push_neg at hg
        right; right
        exact columnLoop_cons_guard sqrt A i is L h hg.1 hg.2

/-- A run of the column loop over the columns `s .. s+n-1` that returns 0 leaves
the columns before `s` as they were and makes each column it visits satisfy the
Cholesky-Crout equations. -/
theorem columnLoop_ok (sqrt : α → α) (A : Mat α) (n s : Nat) (L : Mat α)
    (h0 : (columnLoop sqrt A (List.range' s n) L).1 = 0) :
    (∀ r c, c < s → (columnLoop sqrt A (List.range' s n) L).2 r c = L r c) ∧
    (∀ i, s ≤ i → i < s + n →
      CroutColumn sqrt A (columnLoop sqrt A (List.range' s n) L).2 i) := by
  induction n generalizing s L with
  | zero =>
    refine ⟨fun r c _ => rfl, fun i h1 h2 => ?_⟩
    omega
  | succ n ih =>
    rw [range'_succ_cons] at h0 ⊢
    by_cases h : A s s - dotLoop L s s s ≤ EPSILON
    · rw [columnLoop_cons_fail sqrt A s _ L h] at h0
      exact absurd h0 (by simp)
    · by_cases hg : s + 1 < N → ¬ |sqrt (A s s - dotLoop L s s s)| < EPSILON
      · rw [columnLoop_cons_ok sqrt A s _ L h hg] at h0 ⊢
        obtain ⟨hframe, hcols⟩ := ih (s + 1) (columnResult sqrt A L s) h0
        set Lf := (columnLoop sqrt A (List.range' (s + 1) n) (columnResult sqrt A L s)).2
          with hLf
        have hold : ∀ r c, c < s → Lf r c = L r c := by
          intro r c hc
          rw [hframe r c (by omega), columnResult_other_col _ _ _ _ _ _ (by omega)]
        refine ⟨hold, ?_⟩
        intro i h1 h2
        rcases Nat.eq_or_lt_of_le h1 with heq | hlt
        · subst heq
          have hdot : ∀ r, dotLoop Lf r s s = dotLoop L r s s := fun r =>
            dotLoop_congr _ _ _ _ _ (fun k hk => hold r k hk) (fun k hk => hold s k hk)
          have hcol : ∀ r, Lf r s = columnResult sqrt A L s r s := fun r =>
            hframe r s (by omega)
          have hdiag : Lf s s = sqrt (A s s - dotLoop L s s s) := by
            rw [hcol s]; unfold columnResult; simp
          refine ⟨?_, ?_, ?_, ?_⟩
          · rw [hdot s]; exact lt_of_not_ge h
          · rw [hdot s]; exact hdiag
          · intro r hr hrN
            rw [hdot r, hdiag, hcol r]
            unfold columnResult
            have h1 : ¬ r < s := by omega
            have h2 : ¬ r = s := by omega
            simp [h1, h2, hrN]
          · intro r hr
            rw [hcol r]
            unfold columnResult
            simp [hr]
        · exact hcols i (by omega) (by omega)
      · push_neg at hg
        rw [columnLoop_cons_guard sqrt A s _ L h hg.1 hg.2] at h0
        exact absurd h0 (by decide)

/-- The return code of the column loop, and on return 0 the 32×32 cells of the
columns it visited, depend only on the columns before `s` of the initial buffer. -/
theorem columnLoop_congr (sqrt : α → α) (A : Mat α) (n s : Nat) (L L' : Mat α)
    (hsn : s + n ≤ N) (hL : ∀ r, r < N → ∀ c, c < s → L r c = L' r c) :
    (columnLoop sqrt A (List.range' s n) L).1 = (columnLoop sqrt A (List.range' s n) L').1 ∧
    ((columnLoop sqrt A (List.range' s n) L).1 = 0 →
      ∀ r, r < N → ∀ c, c < s + n →
        (columnLoop sqrt A (List.range' s n) L).2 r c
          = (columnLoop sqrt A (List.range' s n) L').2 r c) := by
  induction n generalizing s L L' with
  | zero =>
    exact ⟨rfl, fun _ r hr c hc => hL r hr c (by omega)⟩
  | succ n ih =>
    rw [range'_succ_cons]
    have hdot : ∀ r, r < N → dotLoop L r s s = dotLoop L' r s s := fun r hr =>
      dotLoop_congr _ _ _ _ _ (fun k hk => hL r hr k hk) (fun k hk => hL s (by omega) k hk)
    by_cases h : A s s - dotLoop L s s s ≤ EPSILON
    · have h' : A s s - dotLoop L' s s s ≤ EPSILON := by rw [← hdot s (by omega)]; exact h
      rw [columnLoop_cons_fail sqrt A s _ L h, columnLoop_cons_fail sqrt A s _ L' h']
      exact ⟨rfl, fun h0 => absurd h0 (by simp)⟩
    · have h' : ¬ A s s - dotLoop L' s s s ≤ EPSILON := by rw [← hdot s (by omega)]; exact h
      by_cases hg : s + 1 < N → ¬ |sqrt (A s s - dotLoop L s s s)| < EPSILON
      · have hg' : s + 1 < N → ¬ |sqrt (A s s - dotLoop L' s s s)| < EPSILON := by
          rw [← hdot s (by omega)]; exact hg
        rw [columnLoop_cons_ok sqrt A s _ L h hg, columnLoop_cons_ok sqrt A s _ L' h' hg']
        have := ih (s + 1) (columnResult sqrt A L s) (columnResult sqrt A L' s) (by omega)
          (by
            intro r hr c hc
            unfold columnResult
            rw [hdot s (by omega), hdot r hr]
            by_cases hcs : c = s
            · simp [hcs, hr]
            · simp only [if_neg hcs]
              exact hL r hr c (by omega))
        refine ⟨this.1, fun h0 r hr c hc => this.2 h0 r hr c (by omega)⟩
      · push_neg at hg
        have hg' : |sqrt (A s s - dotLoop L' s s s)| < EPSILON := by
          rw [← hdot s (by omega)]; exact hg.2
        rw [columnLoop_cons_guard sqrt A s _ L h hg.1 hg.2,
          columnLoop_cons_guard sqrt A s _ L' h' hg.1 hg']
        exact ⟨rfl, fun h0 => absurd h0 (by decide)⟩

/-- When a matrix `T` satisfies the Cholesky-Crout equations on the columns
`s .. s+n-1`, with pivots that pass the division guard, and the buffer already
holds `T` on the columns before `s`, the column loop returns 0 and leaves `T`
on the columns before `s + n`. -/
theorem columnLoop_run (sqrt : α → α) (A T : Mat α) (n s : Nat) (L : Mat α)
    (hsn : s + n ≤ N) (hL : ∀ r, r < N → ∀ c, c < s → L r c = T r c)
    (hT : ∀ i, s ≤ i → i < s + n → CroutColumn sqrt A T i)
    (hguard : ∀ i, s ≤ i → i < s + n → ¬ |T i i| < EPSILON) :
    (columnLoop sqrt A (List.range' s n) L).1 = 0 ∧
    ∀ r, r < N → ∀ c, c < s + n → (columnLoop sqrt A (List.range' s n) L).2 r c = T r c := by
  induction n generalizing s L with
  | zero =>
    exact ⟨rfl, fun r hr c hc => hL r hr c (by omega)⟩
  | succ n ih =>
    rw [range'_succ_cons]
    have hdot : ∀ r, r < N → dotLoop L r s s = dotLoop T r s s := fun r hr =>
      dotLoop_congr _ _ _ _ _ (fun k hk => hL r hr k hk) (fun k hk => hL s (by omega) k hk)
    obtain ⟨hp, hd, hbelow, habove⟩ := hT s le_rfl (by omega)
    have h : ¬ A s s - dotLoop L s s s ≤ EPSILON := by
      rw [hdot s (by omega)]; exact not_le.mpr hp
    have hg : s + 1 < N → ¬ |sqrt (A s s - dotLoop L s s s)| < EPSILON := by
      intro _
      rw [hdot s (by omega), ← hd]
      exact hguard s le_rfl (by omega)
    rw [columnLoop_cons_ok sqrt A s _ L h hg]
    have := ih (s + 1) (columnResult sqrt A L s) (by omega)
      (by
        intro r hr c hc
        unfold columnResult
        rw [hdot s (by omega), hdot r hr, ← hd]
        by_cases hcs : c = s
        · subst hcs
          rcases lt_trichotomy r c with hlt | heq | hgt
          · simp [hlt, habove r hlt]
          · subst heq; simp
          · have h1 : ¬ r < c := by omega
            have h2 : ¬ r = c := by omega
            simp [h1, h2, hr, hbelow r hgt hr]
        · simp only [if_neg hcs]
          exact hL r hr c (by omega))
      (fun i h1 h2 => hT i (by omega) (by omega))
      (fun i h1 h2 => hguard i (by omega) (by omega))
    exact ⟨this.1, fun r hr c hc => this.2 r hr c (by omega)⟩

/-! ### The whole function -/

theorem range_N_eq : List.range N = List.range' 0 N := List.range_eq_range' N

/-- The symmetry validation passes exactly when every pair is within `EPSILON`. -/
theorem symmetry_check_false_iff (A : Mat α) :
    symmetryOuter A (List.range N) = false ↔
      ∀ i j, i < j → j < N → |A i j - A j i| ≤ EPSILON := by
  rw [← Bool.not_eq_true, symmetry_check_iff]
  constructor
  · intro h i j hij hj
    by_contra hc
    exact h ⟨i, j, hij, hj, lt_of_not_ge hc⟩
  · rintro h ⟨i, j, hij, hj, hc⟩
    exact absurd (h i j hij hj) (not_le.mpr hc)

theorem decompose_of_symmetric (sqrt : α → α) (A L : Mat α)
    (h : symmetryOuter A (List.range N) = false) :
    cholesky_decompose_32x32 sqrt A L = columnLoop sqrt A (List.range' 0 N) L := by
  unfold cholesky_decompose_32x32
  rw [h, range_N_eq]
  simp

theorem decompose_of_not_symmetric (sqrt : α → α) (A L : Mat α)
    (h : symmetryOuter A (List.range N) = true) :
    cholesky_decompose_32x32 sqrt A L = (1, L) := by
  unfold cholesky_decompose_32x32
  rw [h]
  simp

/-- The function returns 1 exactly when the symmetry validation fails. -/
theorem decompose_code_one_iff (sqrt : α → α) (A L : Mat α) :
    (cholesky_decompose_32x32 sqrt A L).1 = 1 ↔ symmetryOuter A (List.range N) = true := by
  cases h : symmetryOuter A (List.range N)
  · rw [decompose_of_symmetric sqrt A L h]
    constructor
    · intro h1
      rcases columnLoop_code sqrt A (List.range' 0 N) L with h0 | h2 | h3
      · rw [h0] at h1; exact absurd h1 (by decide)
      · rw [h2] at h1; exact absurd h1 (by decide)
      · rw [h3] at h1; exact absurd h1 (by decide)
    · intro hf; exact absurd hf (by decide)
  · rw [decompose_of_not_symmetric sqrt A L h]
    simp

/-- A call that returns 0 passed the symmetry validation and left a buffer whose
32 columns satisfy the Cholesky-Crout equations. -/
theorem decompose_ok (sqrt : α → α) (A L : Mat α)
    (h0 : (cholesky_decompose_32x32 sqrt A L).1 = 0) :
    (∀ i j, i < j → j < N → |A i j - A j i| ≤ EPSILON) ∧
    ∀ i, i < N → CroutColumn sqrt A (cholesky_decompose_32x32 sqrt A L).2 i := by
  cases h : symmetryOuter A (List.range N)
  · rw [decompose_of_symmetric sqrt A L h] at h0 ⊢
    refine ⟨(symmetry_check_false_iff A).mp h, fun i hi => ?_⟩
    exact (columnLoop_ok sqrt A N 0 L h0).2 i (Nat.zero_le _) (by omega)
  · rw [decompose_of_not_symmetric sqrt A L h] at h0
    exact absurd h0 (by simp)

/-- The return code, and on return 0 the 32×32 cells of the output, do not
depend on the initial content of the output buffer. -/
theorem decompose_congr (sqrt : α → α) (A L L' : Mat α) :
    (cholesky_decompose_32x32 sqrt A L).1 = (cholesky_decompose_32x32 sqrt A L').1 ∧
    ((cholesky_decompose_32x32 sqrt A L).1 = 0 →
      ∀ r, r < N → ∀ c, c < N →
        (cholesky_decompose_32x32 sqrt A L).2 r c = (cholesky_decompose_32x32 sqrt A L').2 r c) := by
  cases h : symmetryOuter A (List.range N)
  · rw [decompose_of_symmetric sqrt A L h, decompose_of_symmetric sqrt A L' h]
    have := columnLoop_congr sqrt A N 0 L L' (by omega) (fun r _ c hc => absurd hc (by omega))
    exact ⟨this.1, fun h0 r hr c hc => this.2 h0 r hr c (by omega)⟩
  · rw [decompose_of_not_symmetric sqrt A L h, decompose_of_not_symmetric sqrt A L' h]
    exact ⟨rfl, fun h0 => absurd h0 (by simp)⟩

/-- When `A` passes the symmetry validation and `T` satisfies the Cholesky-Crout
equations for `A` with pivots that pass the division guard, the call returns 0
and the output holds `T`. -/
theorem decompose_run (sqrt : α → α) (A T L : Mat α)
    (hsym : ∀ i j, i < j → j < N → |A i j - A j i| ≤ EPSILON)
    (hT : ∀ i, i < N → CroutColumn sqrt A T i)
    (hguard : ∀ i, i < N → ¬ |T i i| < EPSILON) :
    (cholesky_decompose_32x32 sqrt A L).1 = 0 ∧
    ∀ r, r < N → ∀ c, c < N → (cholesky_decompose_32x32 sqrt A L).2 r c = T r c := by
  rw [decompose_of_symmetric sqrt A L ((symmetry_check_false_iff A).mpr hsym)]
  have := columnLoop_run sqrt A T N 0 L (by omega) (fun r _ c hc => absurd hc (by omega))
    (fun i _ hi => hT i (by omega)) (fun i _ hi => hguard i (by omega))
  exact ⟨this.1, fun r hr c hc => this.2 r hr c (by omega)⟩

/-! ### Consequences of the Cholesky-Crout equations -/

theorem dotLoop_trunc (L : Mat α) (r1 r2 m n : Nat) (hmn : m ≤ n)
    (hz : ∀ k, m ≤ k → k < n → L r2 k = 0) :
    dotLoop L r1 r2 n = dotLoop L r1 r2 m := by
  induction n with
  | zero =>
    have : m = 0 := by omega
    rw [this]
  | succ n ih =>
    rcases Nat.eq_or_lt_of_le hmn with heq | hlt
    · rw [heq]
    · show dotLoop L r1 r2 n + L r1 n * L r2 n = _
      rw [hz n (by omega) (by omega), mul_zero, add_zero]
      exact ih (by omega) (fun k h1 h2 => hz k h1 (by omega))

/-- With a triangular factor whose columns satisfy the equations, whose diagonal
does not vanish and squares to the pivots, row `i` times row `j` gives `A i j`
for `j ≤ i`. -/
theorem crout_reconstruct (sqrt : α → α) (A L : Mat α)
    (hT : ∀ i, i < N → CroutColumn sqrt A L i)
    (hsq : ∀ i, i < N → L i i * L i i = A i i - dotLoop L i i i)
    (hne : ∀ i, i < N → L i i ≠ 0)
    (i j : Nat) (hi : i < N) (hji : j ≤ i) :
    dotLoop L i j N = A i j := by
  have hz : ∀ k, j + 1 ≤ k → k < N → L j k = 0 := fun k h1 h2 => (hT k h2).2.2.2 j (by omega)
  rw [dotLoop_trunc L i j (j + 1) N (by omega) hz]
  show dotLoop L i j j + L i j * L j j = A i j
  rcases Nat.eq_or_lt_of_le hji with heq | hlt
  · subst heq
    rw [hsq j hi]; ring
  · rw [(hT j (by omega)).2.2.1 i hlt hi, div_mul_cancel₀ _ (hne j (by omega))]
    ring

/-! ### Facts that use the real square root -/

/-- A pivot that passed the check `diag_value > EPSILON` has a square root that
passes the division guard. -/
theorem sqrt_guard (d : ℝ) (h : EPSILON < d) : ¬ |Real.sqrt d| < EPSILON := by
  intro hlt
  rw [abs_of_nonneg (Real.sqrt_nonneg d)] at hlt
  have hd : 0 ≤ d := le_of_lt (lt_trans EPSILON_pos h)
  have h1 : Real.sqrt d * Real.sqrt d < EPSILON * EPSILON :=
    mul_self_lt_mul_self (Real.sqrt_nonneg d) hlt
  rw [Real.mul_self_sqrt hd] at h1
  have h2 : (EPSILON : ℝ) * EPSILON ≤ EPSILON := by
    rw [EPSILON_eq]; norm_num
  linarith

theorem crout_diag_pos (A L : Mat ℝ) (i : Nat) (h : CroutColumn Real.sqrt A L i) :
    0 < L i i := by
  rw [h.2.1]
  exact Real.sqrt_pos.mpr (lt_trans EPSILON_pos h.1)

theorem crout_diag_sq (A L : Mat ℝ) (i : Nat) (h : CroutColumn Real.sqrt A L i) :
    L i i * L i i = A i i - dotLoop L i i i := by
  have hd : 0 ≤ A i i - dotLoop L i i i := le_of_lt (lt_trans EPSILON_pos h.1)
  rw [h.2.1]
  exact Real.mul_self_sqrt hd

theorem crout_guard (A L : Mat ℝ) (i : Nat) (h : CroutColumn Real.sqrt A L i) :
    ¬ |L i i| < EPSILON := by
  rw [h.2.1]
  exact sqrt_guard _ h.1

/-- Over the reals the column loop returns 0 or 2: the division guard never fires. -/
theorem columnLoop_code_real (A : Mat ℝ) (is : List Nat) (L : Mat ℝ) :
    (columnLoop Real.sqrt A is L).1 = 0 ∨ (columnLoop Real.sqrt A is L).1 = 2 := by
  induction is generalizing L with
  | nil => left; rfl
  | cons i is ih =>
    by_cases h : A i i - dotLoop L i i i ≤ EPSILON
    · rw [columnLoop_cons_fail Real.sqrt A i is L h]; right; rfl
    · rw [columnLoop_cons_ok Real.sqrt A i is L h (fun _ => sqrt_guard _ (lt_of_not_ge h))]
      exact ih _

/-- Over the reals the function returns 0, 1 or 2. -/
theorem decompose_code_real (A L : Mat ℝ) :
    (cholesky_decompose_32x32 Real.sqrt A L).1 = 0 ∨
    (cholesky_decompose_32x32 Real.sqrt A L).1 = 1 ∨
    (cholesky_decompose_32x32 Real.sqrt A L).1 = 2 := by
  cases h : symmetryOuter A (List.range N)
  · rw [decompose_of_symmetric Real.sqrt A L h]
    rcases columnLoop_code_real A (List.range' 0 N) L with h0 | h2
    · exact Or.inl h0
    · exact Or.inr (Or.inr h2)
  · rw [decompose_of_not_symmetric Real.sqrt A L h]
    right; left; rfl

/-- Over the reals, a successful call reconstructs the lower triangle of `A` exactly. -/
theorem decompose_reconstruct_lower (A L : Mat ℝ)
    (h0 : (cholesky_decompose_32x32 Real.sqrt A L).1 = 0)
    (i j : Nat) (hi : i < N) (hji : j ≤ i) :
    dotLoop (cholesky_decompose_32x32 Real.sqrt A L).2 i j N = A i j := by
  have hT := (decompose_ok Real.sqrt A L h0).2
  exact crout_reconstruct Real.sqrt A _ hT
    (fun k hk => crout_diag_sq A _ k (hT k hk))
    (fun k hk => ne_of_gt (crout_diag_pos A _ k (hT k hk))) i j hi hji

/-! ### Diagonal inputs -/

theorem dotLoop_zero (L : Mat α) (r1 r2 n : Nat) (hz : ∀ k, k < n → L r2 k = 0) :
    dotLoop L r1 r2 n = 0 := by
  rw [dotLoop_trunc L r1 r2 0 n (Nat.zero_le _) (fun k _ hk => hz k hk)]
  rfl

/-- When `A` is diagonal on the 32×32 cells, with diagonal `d`, the diagonal
matrix of the square roots satisfies the Cholesky-Crout equations in every
column whose `d i` passes the pivot check. -/
theorem crout_of_diagonal (sqrt : α → α) (A T : Mat α) (d : Nat → α)
    (hA : ∀ r c, r < N → c < N → A r c = if r = c then d r else 0)
    (hT : ∀ r c, r < N → c < N → T r c = if r = c then sqrt (d r) else 0)
    (i : Nat) (hi : i < N) (hd : EPSILON < d i) :
    CroutColumn sqrt A T i := by
  have hdot : ∀ r, dotLoop T r i i = 0 := fun r =>
    dotLoop_zero T r i i (fun k hk => by
      rw [hT i k hi (by omega), if_neg (by omega)])
  have hAii : A i i = d i := by rw [hA i i hi hi, if_pos rfl]
  have hTii : T i i = sqrt (d i) := by rw [hT i i hi hi, if_pos rfl]
  refine ⟨?_, ?_, ?_, ?_⟩
  · rw [hdot i, sub_zero, hAii]; exact hd
  · rw [hdot i, sub_zero, hAii]; exact hTii
  · intro r hr hrN
    rw [hdot r, sub_zero, hA r i hrN hi, if_neg (by omega), zero_div,
      hT r i hrN hi, if_neg (by omega)]
  · intro r hr
    rw [hT r i (by omega) hi, if_neg (by omega)]

/-- A matrix that is diagonal on the 32×32 cells, with every diagonal entry
above `EPSILON`, is decomposed into the diagonal matrix of the square roots. -/
theorem decompose_diagonal (A L : Mat ℝ) (d : Nat → ℝ)
    (hA : ∀ r c, r < N → c < N → A r c = if r = c then d r else 0)
    (hd : ∀ i, i < N → EPSILON < d i) :
    (cholesky_decompose_32x32 Real.sqrt A L).1 = 0 ∧
    ∀ r, r < N → ∀ c, c < N →
      (cholesky_decompose_32x32 Real.sqrt A L).2 r c = if r = c then Real.sqrt (d r) else 0 := by
  have hT : ∀ i, i < N →
      CroutColumn Real.sqrt A (fun r c => if r = c then Real.sqrt (d r) else 0) i :=
    fun i hi => crout_of_diagonal Real.sqrt A _ d hA (fun _ _ _ _ => rfl) i hi (hd i hi)
  refine decompose_run Real.sqrt A (fun r c => if r = c then Real.sqrt (d r) else 0) L ?_ hT
    (fun i hi => crout_guard A _ i (hT i hi))
  intro i j hij hj
  rw [hA i j (by omega) hj, hA j i hj (by omega), if_neg (by omega), if_neg (by omega),
    sub_zero, abs_zero]
  exact le_of_lt EPSILON_pos

theorem one_gt_EPSILON : (EPSILON : α) < 1 := by
  rw [EPSILON_eq]
  rw [div_lt_one (by positivity)]
  norm_num

/-- The identity matrix is decomposed into the identity matrix. -/
theorem decompose_identity (A0 L : Mat ℝ) :
    (cholesky_decompose_32x32 Real.sqrt (generate_identity_matrix A0) L).1 = 0 ∧
    ∀ r, r < N → ∀ c, c < N →
      (cholesky_decompose_32x32 Real.sqrt (generate_identity_matrix A0) L).2 r c
        = if r = c then 1 else 0 := by
  have h := decompose_diagonal (generate_identity_matrix A0) L (fun _ => 1)
    (fun r c hr hc => by unfold generate_identity_matrix; rw [if_pos ⟨hr, hc⟩])
    (fun _ _ => one_gt_EPSILON)
  simp only [Real.sqrt_one] at h
  exact h

/-- After a successful call on an exactly symmetric matrix, every leading
principal minor of `A` is the square of a product of diagonal entries of `L`,
hence positive. -/
theorem leadingMinor_pos (A L : Mat ℝ)
    (h0 : (cholesky_decompose_32x32 Real.sqrt A L).1 = 0)
    (hsym : ∀ i j, i < N → j < N → A i j = A j i) (i : Nat) (hi : i < N) :
    0 < leadingMinor A i := by
  have hT := (decompose_ok Real.sqrt A L h0).2
  set Lf := (cholesky_decompose_32x32 Real.sqrt A L).2 with hLf
  let Lm : Matrix (Fin (i + 1)) (Fin (i + 1)) ℝ := Matrix.of (fun a b => Lf a.val b.val)
  have hentry : ∀ a b : Nat, a ≤ i → b ≤ i →
      ∑ k in Finset.range (i + 1), Lf a k * Lf b k = A a b := by
    intro a b ha hb
    rw [← dotLoop_eq_sum]
    have hz : ∀ k, i + 1 ≤ k → k < N → Lf b k = 0 :=
      fun k h1 h2 => (hT k h2).2.2.2 b (by omega)
    rw [← dotLoop_trunc Lf a b (i + 1) N (by omega) hz]
    rcases Nat.le_total b a with hba | hab
    · exact decompose_reconstruct_lower A L h0 a b (by omega) hba
    · rw [dotLoop_comm, decompose_reconstruct_lower A L h0 b a (by omega) hab]
      exact hsym b a (by omega) (by omega)
  have hprod : Matrix.of (fun a b : Fin (i + 1) => A a.val b.val) = Lm * Lm.transpose := by
    ext a b
    rw [Matrix.mul_apply]
    simp only [Matrix.of_apply, Matrix.transpose_apply, Lm]
    rw [Fin.sum_univ_eq_sum_range (fun k => Lf a.val k * Lf b.val k) (i + 1)]
    exact (hentry a.val b.val (by omega) (by omega)).symm
  have htri : Lm.BlockTriangular OrderDual.toDual := by
    intro a b hab
    have hab' : a.val < b.val := hab
    exact (hT b.val (by omega)).2.2.2 a.val hab'
  have hdet : Lm.det = ∏ k : Fin (i + 1), Lf k.val k.val := by
    rw [Matrix.det_of_lowerTriangular Lm htri]
    rfl
  have hpos : 0 < Lm.det := by
    rw [hdet]
    exact Finset.prod_pos (fun k _ => crout_diag_pos A Lf k.val (hT k.val (by omega)))
  unfold leadingMinor
  rw [hprod, Matrix.det_mul, Matrix.det_transpose]
  exact mul_pos hpos hpos

/-! ### Products of lower-triangular factors -/

/-- Row `i` times row `j` of a lower-triangular `M`, for `j ≤ i`, stops at column `j`. -/
theorem dotLoop_lower (M : Mat α) (htri : ∀ i j, i < N → j < N → i < j → M i j = 0)
    (i j : Nat) (hj : j < N) :
    dotLoop M i j N = dotLoop M i j j + M i j * M j j := by
  rw [dotLoop_trunc M i j (j + 1) N (by omega) (fun k h1 h2 => htri j k hj h2 (by omega))]
  rfl

/-- A lower-triangular `M` with diagonal at least 0.1 satisfies the
Cholesky-Crout equations for `M × Mᵗ`. -/
theorem crout_of_product (M Lt0 C0 : Mat ℝ)
    (htri : ∀ i j, i < N → j < N → i < j → M i j = 0)
    (hdiag : ∀ i, i < N → 0.1 ≤ M i i) (i : Nat) (hi : i < N) :
    CroutColumn Real.sqrt (reconstruct M Lt0 C0) M i := by
  have hpos : 0 < M i i := lt_of_lt_of_le (by norm_num) (hdiag i hi)
  have hA : ∀ r, r < N → reconstruct M Lt0 C0 r i - dotLoop M r i i = M r i * M i i := by
    intro r hr
    rw [reconstruct_apply M Lt0 C0 r i hr hi, dotLoop_lower M htri r i hi]
    ring
  refine ⟨?_, ?_, ?_, ?_⟩
  · rw [hA i hi, EPSILON_eq]
    have h1 : (0.1 : ℝ) * 0.1 ≤ M i i * M i i :=
      mul_le_mul (hdiag i hi) (hdiag i hi) (by norm_num) (le_of_lt hpos)
    have h2 : (1 : ℝ) / 10 ^ 10 < 0.1 * 0.1 := by norm_num
    linarith
  · rw [hA i hi, Real.sqrt_mul_self (le_of_lt hpos)]
  · intro r _ hrN
    rw [hA r hrN, mul_div_cancel_right₀ _ (ne_of_gt hpos)]
  · intro r hr
    exact htri r i (by omega) hi hr

theorem reconstruct_symmetric (M Lt0 C0 : Mat α) (i j : Nat) (hi : i < N) (hj : j < N) :
    reconstruct M Lt0 C0 i j = reconstruct M Lt0 C0 j i := by
  rw [reconstruct_apply M Lt0 C0 i j hi hj, reconstruct_apply M Lt0 C0 j i hj hi, dotLoop_comm]

theorem reconstruct_congr (L L' Lt0 C0 Lt1 C1 : Mat α)
    (h : ∀ r, r < N → ∀ c, c < N → L r c = L' r c) (i j : Nat) (hi : i < N) (hj : j < N) :
    reconstruct L Lt0 C0 i j = reconstruct L' Lt1 C1 i j := by
  rw [reconstruct_apply L Lt0 C0 i j hi hj, reconstruct_apply L' Lt1 C1 i j hi hj]
  exact dotLoop_congr L L' i j N (fun k hk => h i hi k hk) (fun k hk => h j hj k hk)

/-- The product of a lower-triangular matrix with diagonal at least 0.1 by its
transpose is decomposed into that matrix. -/
theorem decompose_product (M L0 Lt0 C0 : Mat ℝ)
    (htri : ∀ i j, i < N → j < N → i < j → M i j = 0)
    (hdiag : ∀ i, i < N → 0.1 ≤ M i i) :
    (cholesky_decompose_32x32 Real.sqrt (reconstruct M Lt0 C0) L0).1 = 0 ∧
    ∀ r, r < N → ∀ c, c < N →
      (cholesky_decompose_32x32 Real.sqrt (reconstruct M Lt0 C0) L0).2 r c = M r c := by
  have hT := crout_of_product M Lt0 C0 htri hdiag
  refine decompose_run Real.sqrt _ M L0 ?_ hT (fun i hi => crout_guard _ M i (hT i hi))
  intro i j hij hj
  rw [reconstruct_symmetric M Lt0 C0 i j (by omega) hj, sub_self, abs_zero]
  exact le_of_lt EPSILON_pos

theorem identity_lower (A0 : Mat ℝ) :
    ∀ i j, i < N → j < N → i < j → generate_identity_matrix A0 i j = 0 := by
  intro i j hi hj hij
  unfold generate_identity_matrix
  rw [if_pos ⟨hi, hj⟩, if_neg (by omega)]

theorem identity_diag (A0 : Mat ℝ) :
    ∀ i, i < N → (0.1 : ℝ) ≤ generate_identity_matrix A0 i i := by
  intro i hi
  unfold generate_identity_matrix
  rw [if_pos ⟨hi, hi⟩, if_pos rfl]
  norm_num

/-! ### The properties of the decomposition -/

/-- C1, reconstruction: over the reals, when the call returns 0, every entry of
`L × Lᵗ` computed by the test helpers is within 1e-9 of the entry of `A`, and
equals it when the column does not exceed the row. -/
theorem reconstruction_within_tolerance (A L0 Lt0 C0 : Mat ℝ)
    (h0 : (cholesky_decompose_32x32 Real.sqrt A L0).1 = 0)
    (i j : Nat) (hi : i < 32) (hj : j < 32) :
    |reconstruct (cholesky_decompose_32x32 Real.sqrt A L0).2 Lt0 C0 i j - A i j| ≤ 1e-9 ∧
    (j ≤ i → reconstruct (cholesky_decompose_32x32 Real.sqrt A L0).2 Lt0 C0 i j = A i j) := by
  rw [reconstruct_apply _ Lt0 C0 i j hi hj]
  have hlow : j ≤ i → dotLoop (cholesky_decompose_32x32 Real.sqrt A L0).2 i j N = A i j :=
    fun hji => decompose_reconstruct_lower A L0 h0 i j hi hji
  refine ⟨?_, hlow⟩
  rcases Nat.lt_or_ge i j with hij | hji
  · rw [dotLoop_comm, decompose_reconstruct_lower A L0 h0 j i hj (le_of_lt hij), abs_sub_comm]
    have h1 := (decompose_ok Real.sqrt A L0 h0).1 i j hij hj
    rw [EPSILON_eq] at h1
    have h2 : (1 : ℝ) / 10 ^ 10 ≤ 1e-9 := by norm_num
    linarith
  · rw [hlow hji, sub_self, abs_zero]
    norm_num

/-- Instance of C1 at the identity matrix with zeroed buffers. -/
theorem reconstruction_within_tolerance_witness :
    (cholesky_decompose_32x32 Real.sqrt (generate_identity_matrix (fun _ _ => 0))
        (fun _ _ => 0)).1 = 0 ∧
    |reconstruct (cholesky_decompose_32x32 Real.sqrt (generate_identity_matrix (fun _ _ => 0))
        (fun _ _ => 0)).2 (fun _ _ => 0) (fun _ _ => 0) 3 1
      - generate_identity_matrix (fun _ _ => (0 : ℝ)) 3 1| ≤ 1e-9 :=
  ⟨(decompose_identity _ _).1,
   (reconstruction_within_tolerance _ _ _ _ (decompose_identity _ _).1 3 1
      (by norm_num) (by norm_num)).1⟩

/-- C2, round trip: over the reals, for a lower-triangular `M` with diagonal at
least 0.1 and `A = M × Mᵗ` computed by the test helpers, the call returns 0, the
output equals `M` entry for entry, and `L × Lᵗ` gives back `A`. -/
theorem round_trip_generated_spd (M L0 Lt0 C0 Lt1 C1 : Mat ℝ)
    (htri : ∀ i j, i < 32 → j < 32 → i < j → M i j = 0)
    (hdiag : ∀ i, i < 32 → 0.1 ≤ M i i) :
    (cholesky_decompose_32x32 Real.sqrt (reconstruct M Lt0 C0) L0).1 = 0 ∧
    (∀ i j, i < 32 → j < 32 →
      (cholesky_decompose_32x32 Real.sqrt (reconstruct M Lt0 C0) L0).2 i j = M i j) ∧
    (∀ i j, i < 32 → j < 32 →
      reconstruct (cholesky_decompose_32x32 Real.sqrt (reconstruct M Lt0 C0) L0).2 Lt1 C1 i j
        = reconstruct M Lt0 C0 i j) := by
  have h := decompose_product M L0 Lt0 C0 htri hdiag
  exact ⟨h.1, fun i j hi hj => h.2 i hi j hj,
    fun i j hi hj => reconstruct_congr _ M Lt1 C1 Lt0 C0 h.2 i j hi hj⟩

/-- Instance of C2 at `M` the identity matrix. -/
theorem round_trip_generated_spd_witness :
    (cholesky_decompose_32x32 Real.sqrt
      (reconstruct (generate_identity_matrix (fun _ _ => (0 : ℝ))) (fun _ _ => 0) (fun _ _ => 0))
      (fun _ _ => 0)).1 = 0 :=
  (round_trip_generated_spd (generate_identity_matrix (fun _ _ => 0)) (fun _ _ => 0)
    (fun _ _ => 0) (fun _ _ => 0) (fun _ _ => 0) (fun _ _ => 0)
    (identity_lower _) (identity_diag _)).1

/-- C4 amended, non-SPD rejection: modelling doubles as exact real numbers, with
the real square root, an exactly symmetric matrix with a leading principal minor
that is not positive is rejected with code 2. -/
theorem non_spd_rejection (A L0 : Mat ℝ)
    (hsym : ∀ i j, i < 32 → j < 32 → A i j = A j i)
    (i : Nat) (hi : i < 32) (hminor : leadingMinor A i ≤ 0) :
    (cholesky_decompose_32x32 Real.sqrt A L0).1 = 2 := by
  rcases decompose_code_real A L0 with h0 | h1 | h2
  · exact absurd (leadingMinor_pos A L0 h0 hsym i hi) (not_lt.mpr hminor)
  · exfalso
    rw [decompose_code_one_iff, symmetry_check_iff] at h1
    obtain ⟨a, b, hab, hb, hgt⟩ := h1
    rw [hsym a b (Nat.lt_trans hab hb) hb, sub_self, abs_zero] at hgt
    exact absurd hgt (not_lt.mpr (le_of_lt EPSILON_pos))
  · exact h2

/-- Instance of C4 amended at the diagonal matrix with `A[1][1] = -1` and 1 on the
rest of the diagonal: its first leading minor is 1 and its second one is -1. -/
theorem non_spd_rejection_witness :
    leadingMinor (fun i j => if i = j then (if i = 1 then (-1 : ℝ) else 1) else 0) 1 ≤ 0 ∧
    (cholesky_decompose_32x32 Real.sqrt
      (fun i j => if i = j then (if i = 1 then (-1 : ℝ) else 1) else 0) (fun _ _ => 0)).1 = 2 :=
  have hminor :
      leadingMinor (fun i j => if i = j then (if i = 1 then (-1 : ℝ) else 1) else 0) 1 ≤ 0 := by
    unfold leadingMinor
    rw [Matrix.det_fin_two]
    simp
  ⟨hminor,
   non_spd_rejection _ (fun _ _ => 0)
    (fun i j _ _ => by
      by_cases h : i = j
      · subst h; rfl
      · have h' : ¬ j = i := fun e => h e.symm
        simp only [h, h', if_false])
    1 (by norm_num) hminor⟩

/-- C5, triangularity: whatever the arithmetic, the square root and the initial
content of the output buffer, when the call returns 0 every entry of `L` above
the diagonal is exactly 0. -/
theorem upper_triangle_zero (sqrt : α → α) (A L0 : Mat α)
    (h0 : (cholesky_decompose_32x32 sqrt A L0).1 = 0)
    (i j : Nat) (hij : i < j) (hj : j < 32) :
    (cholesky_decompose_32x32 sqrt A L0).2 i j = 0 :=
  ((decompose_ok sqrt A L0 h0).2 j hj).2.2.2 i hij

/-- Instance of C5 at the identity matrix, with an output buffer full of sevens. -/
theorem upper_triangle_zero_witness :
    (cholesky_decompose_32x32 Real.sqrt (generate_identity_matrix (fun _ _ => 0))
      (fun _ _ => 7)).1 = 0 ∧
    (cholesky_decompose_32x32 Real.sqrt (generate_identity_matrix (fun _ _ => 0))
      (fun _ _ => 7)).2 2 5 = 0 :=
  ⟨(decompose_identity _ _).1,
   upper_triangle_zero Real.sqrt _ _ (decompose_identity _ _).1 2 5 (by norm_num) (by norm_num)⟩

/-- C6, positivity: over the reals, when the call returns 0 every diagonal entry
of `L` is positive. -/
theorem diagonal_positive (A L0 : Mat ℝ)
    (h0 : (cholesky_decompose_32x32 Real.sqrt A L0).1 = 0) (i : Nat) (hi : i < 32) :
    0 < (cholesky_decompose_32x32 Real.sqrt A L0).2 i i :=
  crout_diag_pos A _ i ((decompose_ok Real.sqrt A L0 h0).2 i hi)

/-- Instance of C6 at the identity matrix. -/
theorem diagonal_positive_witness :
    (cholesky_decompose_32x32 Real.sqrt (generate_identity_matrix (fun _ _ => 0))
      (fun _ _ => 0)).1 = 0 ∧
    0 < (cholesky_decompose_32x32 Real.sqrt (generate_identity_matrix (fun _ _ => 0))
      (fun _ _ => 0)).2 4 4 :=
  ⟨(decompose_identity _ _).1,
   diagonal_positive _ _ (decompose_identity _ _).1 4 (by norm_num)⟩

/-- C7, the numerical-error path is unreachable: over the reals the call never
returns 3, its return code is 0, 1 or 2, because in every column whose pivot
passed the check `diag_value > 1e-10` the entry `L[i][i] = sqrt(diag_value)`
read by the division guard is not below 1e-10 in absolute value. -/
theorem numerical_error_unreachable (A L0 : Mat ℝ) :
    (cholesky_decompose_32x32 Real.sqrt A L0).1 ≠ 3 ∧
    ((cholesky_decompose_32x32 Real.sqrt A L0).1 = 0 ∨
     (cholesky_decompose_32x32 Real.sqrt A L0).1 = 1 ∨
     (cholesky_decompose_32x32 Real.sqrt A L0).1 = 2) ∧
    (∀ (i : Nat) (L : Mat ℝ), ¬ A i i - dotLoop L i i i ≤ 1e-10 →
      ¬ |store L i i (Real.sqrt (A i i - dotLoop L i i i)) i i| < 1e-10) := by
  refine ⟨?_, decompose_code_real A L0, ?_⟩
  · rcases decompose_code_real A L0 with h | h | h <;> rw [h] <;> decide
  · intro i L hp
    rw [store_same]
    exact sqrt_guard _ (lt_of_not_ge hp)

/-- C9, identity case: over the reals, on the identity matrix produced by
`generate_identity_matrix` the call returns 0 and `L` is exactly the identity
matrix, whatever the output buffer held before. -/
theorem identity_case (A0 L0 : Mat ℝ) :
    (cholesky_decompose_32x32 Real.sqrt (generate_identity_matrix A0) L0).1 = 0 ∧
    ∀ i j, i < 32 → j < 32 →
      (cholesky_decompose_32x32 Real.sqrt (generate_identity_matrix A0) L0).2 i j
        = if i = j then 1 else 0 := by
  have h := decompose_identity A0 L0
  exact ⟨h.1, fun i j hi hj => h.2 i hi j hj⟩

/-- C10, determinism: whatever the arithmetic and the square root, two calls on
the same `A` with different initial output buffers return the same code and,
when that code is 0, leave the same 32×32 matrix `L`. -/
theorem output_independent_of_buffer (sqrt : α → α) (A L0 L0' : Mat α) :
    (cholesky_decompose_32x32 sqrt A L0).1 = (cholesky_decompose_32x32 sqrt A L0').1 ∧
    ((cholesky_decompose_32x32 sqrt A L0).1 = 0 →
      ∀ i j, i < 32 → j < 32 →
        (cholesky_decompose_32x32 sqrt A L0).2 i j
          = (cholesky_decompose_32x32 sqrt A L0').2 i j) := by
  have h := decompose_congr sqrt A L0 L0'
  exact ⟨h.1, fun h0 i j hi hj => h.2 h0 i hi j hj⟩

/-! ### Which cells of `A` the column loop reads -/

theorem offDiagLoop_congr_input (A A' : Mat α) (i : Nat) (js : List Nat) (L : Mat α)
    (h : ∀ j, j ∈ js → A j i = A' j i) :
    offDiagLoop A i js L = offDiagLoop A' i js L := by
  induction js generalizing L with
  | nil => rfl
  | cons j js ih =>
    rw [offDiagLoop, offDiagLoop, h j (List.mem_cons_self _ _)]
    by_cases hg : |L i i| < EPSILON
    · simp only [if_pos hg]
    · simp only [if_neg hg]
      exact ih _ (fun k hk => h k (List.mem_cons_of_mem _ hk))

/-- The column loop reads `A` on and below the diagonal only. -/
theorem columnLoop_congr_input (sqrt : α → α) (A A' : Mat α) (is : List Nat) (L : Mat α)
    (h : ∀ r c, c ≤ r → r < N → A r c = A' r c) (his : ∀ i, i ∈ is → i < N) :
    columnLoop sqrt A is L = columnLoop sqrt A' is L := by
  induction is generalizing L with
  | nil => rfl
  | cons i is ih =>
    have hi : i < N := his i (List.mem_cons_self _ _)
    have hoff : ∀ L1 : Mat α, offDiagLoop A i (List.range' (i + 1) (N - (i + 1))) L1
        = offDiagLoop A' i (List.range' (i + 1) (N - (i + 1))) L1 := fun L1 =>
      offDiagLoop_congr_input A A' i _ L1 (fun j hj => by
        rw [List.mem_range'_1] at hj
        exact h j i (by omega) (by omega))
    rw [columnLoop, columnLoop, h i i le_rfl hi]
    simp only [hoff]
    by_cases hp : A' i i - dotLoop L i i i ≤ EPSILON
    · simp only [if_pos hp]
    · simp only [if_neg hp]
      split
      · rfl
      · exact ih _ (fun k hk => his k (List.mem_cons_of_mem _ hk))

theorem dotLoop_self_nonneg (L : Mat α) (r n : Nat) : 0 ≤ dotLoop L r r n := by
  induction n with
  | zero => exact le_refl _
  | succ n ih =>
    show 0 ≤ dotLoop L r r n + L r n * L r n
    exact add_nonneg ih (mul_self_nonneg _)

/-- A column that satisfies the equations has a diagonal entry of `A` above `EPSILON`. -/
theorem crout_diag_input (sqrt : α → α) (A L : Mat α) (i : Nat) (h : CroutColumn sqrt A L i) :
    EPSILON < A i i := by
  have h1 := h.1
  have h2 := dotLoop_self_nonneg L i i
  linarith

/-- A matrix with a cell above the diagonal that differs from its mirror cell by
more than `EPSILON` is rejected with code 1 and the buffer is returned as it was. -/
theorem decompose_asymmetric (sqrt : α → α) (A L : Mat α) (i j : Nat) (hij : i < j) (hj : j < N)
    (h : |A i j - A j i| > EPSILON) :
    cholesky_decompose_32x32 sqrt A L = (1, L) :=
  decompose_of_not_symmetric sqrt A L ((symmetry_check_iff A).mpr ⟨i, j, hij, hj, h⟩)

/-- C12, no computation after a symmetry failure: whatever the arithmetic and the
square root, when the call returns 1 the output buffer is exactly the initial one. -/
theorem buffer_untouched_on_code_one (sqrt : α → α) (A L0 : Mat α)
    (h1 : (cholesky_decompose_32x32 sqrt A L0).1 = 1) :
    (cholesky_decompose_32x32 sqrt A L0).2 = L0 := by
  rw [decompose_of_not_symmetric sqrt A L0 ((decompose_code_one_iff sqrt A L0).mp h1)]

/-- Instance of C12 at the matrix whose only non-zero cell is `A[0][1] = 1`, with
an output buffer full of sevens. -/
theorem buffer_untouched_on_code_one_witness :
    (cholesky_decompose_32x32 Real.sqrt (fun i j => if i = 0 ∧ j = 1 then 1 else 0)
      (fun _ _ => 7)).1 = 1 ∧
    (cholesky_decompose_32x32 Real.sqrt (fun i j => if i = 0 ∧ j = 1 then 1 else 0)
      (fun _ _ => 7)).2 = (fun _ _ => (7 : ℝ)) :=
  have h : (cholesky_decompose_32x32 Real.sqrt (fun i j => if i = 0 ∧ j = 1 then 1 else 0)
      (fun _ _ => 7)).1 = 1 := by
    rw [decompose_asymmetric Real.sqrt _ _ 0 1 (by norm_num) (by norm_num [N])
      (by rw [EPSILON_eq]; norm_num)]
  ⟨h, buffer_untouched_on_code_one Real.sqrt _ _ h⟩

/-- Small diagonal entries in exact arithmetic: over the reals, when `A` passes the
symmetry check, a diagonal entry `A[i][i] ≤ 1e-10` at any `i < 32` makes the call
return 2, and a return of 0 implies `A[i][i] > 1e-10` for every `i < 32`. -/
theorem small_diagonal_rejected (A L0 : Mat ℝ)
    (hsym : ∀ i j, i < j → j < 32 → |A i j - A j i| ≤ 1e-10) :
    (∀ i, i < 32 → A i i ≤ 1e-10 → (cholesky_decompose_32x32 Real.sqrt A L0).1 = 2) ∧
    ((cholesky_decompose_32x32 Real.sqrt A L0).1 = 0 → ∀ i, i < 32 → 1e-10 < A i i) := by
  have hzero : (cholesky_decompose_32x32 Real.sqrt A L0).1 = 0 → ∀ i, i < 32 → 1e-10 < A i i :=
    fun h0 i hi => crout_diag_input Real.sqrt A _ i ((decompose_ok Real.sqrt A L0 h0).2 i hi)
  refine ⟨?_, hzero⟩
  intro i hi hsmall
  rcases decompose_code_real A L0 with h0 | h1 | h2
  · exact absurd (hzero h0 i hi) (not_lt.mpr hsmall)
  · exfalso
    rw [decompose_code_one_iff, symmetry_check_iff] at h1
    obtain ⟨a, b, hab, hb, hgt⟩ := h1
    exact absurd (hsym a b hab hb) (not_le.mpr hgt)
  · exact h2

/-- Instance at the diagonal matrix with `A[5][5] = 0` and 1 on the rest of the
diagonal: over the reals it is rejected at column 5. -/
theorem small_diagonal_rejected_witness :
    (cholesky_decompose_32x32 Real.sqrt
      (fun i j => if i = j then (if i = 5 then (0 : ℝ) else 1) else 0) (fun _ _ => 0)).1 = 2 :=
  (small_diagonal_rejected (fun i j => if i = j then (if i = 5 then (0 : ℝ) else 1) else 0)
    (fun _ _ => 0)
    (fun i j hij _ => by
      have h2 : ¬ i = j := by omega
      have h3 : ¬ j = i := by omega
      simp only [h2, h3, if_false, sub_zero, abs_zero]
      norm_num)).1 5 (by norm_num) (by norm_num)

/-- C15, only the lower triangle of `A` drives the factorisation: whatever the
arithmetic and the square root, two matrices that pass the symmetry check and
agree on every cell with row ≥ column get the same return code and, on return 0,
the same `L`; the column loop gives the same result on any two matrices that
agree on those cells, passing the symmetry check or not. -/
theorem lower_triangle_drives (sqrt : α → α) (A A' L0 L0' : Mat α)
    (hsym : ∀ i j, i < j → j < 32 → |A i j - A j i| ≤ 1e-10)
    (hsym' : ∀ i j, i < j → j < 32 → |A' i j - A' j i| ≤ 1e-10)
    (hlow : ∀ r c, c ≤ r → r < 32 → A r c = A' r c) :
    (cholesky_decompose_32x32 sqrt A L0).1 = (cholesky_decompose_32x32 sqrt A' L0').1 ∧
    ((cholesky_decompose_32x32 sqrt A L0).1 = 0 →
      ∀ i j, i < 32 → j < 32 →
        (cholesky_decompose_32x32 sqrt A L0).2 i j
          = (cholesky_decompose_32x32 sqrt A' L0').2 i j) ∧
    (∀ L : Mat α, columnLoop sqrt A (List.range N) L = columnLoop sqrt A' (List.range N) L) := by
  have hloop : ∀ L : Mat α,
      columnLoop sqrt A (List.range N) L = columnLoop sqrt A' (List.range N) L := fun L =>
    columnLoop_congr_input sqrt A A' _ L hlow (fun i hi => List.mem_range.mp hi)
  have hsame : cholesky_decompose_32x32 sqrt A L0 = cholesky_decompose_32x32 sqrt A' L0 := by
    rw [decompose_of_symmetric sqrt A L0 ((symmetry_check_false_iff A).mpr hsym),
      decompose_of_symmetric sqrt A' L0 ((symmetry_check_false_iff A').mpr hsym'),
      ← range_N_eq]
    exact hloop L0
  have hbuf := decompose_congr sqrt A' L0 L0'
  rw [hsame]
  exact ⟨hbuf.1, fun h0 i j hi hj => hbuf.2 h0 i hi j hj, hloop⟩

/-- Instance of C15 at the identity matrix and the identity matrix with its top
right cell set to `1e-10`. -/
theorem lower_triangle_drives_witness :
    (cholesky_decompose_32x32 Real.sqrt (fun i j => if i = j then (1 : ℝ) else 0)
      (fun _ _ => 0)).1 =
    (cholesky_decompose_32x32 Real.sqrt
      (fun i j => if i = j then (1 : ℝ) else if i = 0 ∧ j = 31 then 1e-10 else 0)
      (fun _ _ => 7)).1 :=
  (lower_triangle_drives Real.sqrt (fun i j => if i = j then (1 : ℝ) else 0)
    (fun i j => if i = j then (1 : ℝ) else if i = 0 ∧ j = 31 then 1e-10 else 0)
    (fun _ _ => 0) (fun _ _ => 7)
    (fun i j hij _ => by
      have h2 : ¬ i = j := by omega
      have h3 : ¬ j = i := by omega
      simp only [h2, h3, if_false, sub_zero, abs_zero]
      norm_num)
    (fun i j hij _ => by
      have h1 : ¬ (j = 0 ∧ i = 31) := by omega
      have h2 : ¬ i = j := by omega
      have h3 : ¬ j = i := by omega
      simp only [h1, h2, h3, if_false, sub_zero]
      split_ifs
      · rw [abs_of_nonneg (by norm_num)]
      · rw [abs_zero]; norm_num)
    (fun r c hcr _ => by
      have h1 : ¬ (r = 0 ∧ c = 31) := by omega
      simp only [h1, if_false])).1

/-! ### Agreement with the Cholesky-Crout reference -/

theorem croutReference_diag (sqrt : α → α) (A : Mat α) (i : Nat) :
    croutReference sqrt A i i = sqrt (croutPivot sqrt A i) := by
  rw [croutReference, if_pos rfl]; rfl

theorem croutReference_below (sqrt : α → α) (A : Mat α) (j i : Nat) (h : i < j) :
    croutReference sqrt A j i =
      (A j i - ∑ k : Fin i, croutReference sqrt A j k.val * croutReference sqrt A i k.val)
        / croutReference sqrt A i i := by
  rw [croutReference_diag, croutReference, if_neg (by omega), if_pos h]; rfl

theorem croutReference_above (sqrt : α → α) (A : Mat α) (j i : Nat) (h : j < i) :
    croutReference sqrt A j i = 0 := by
  rw [croutReference, if_neg (by omega), if_neg (by omega)]

theorem dotLoop_croutReference (sqrt : α → α) (A : Mat α) (r i : Nat) :
    dotLoop (croutReference sqrt A) r i i
      = ∑ k : Fin i, croutReference sqrt A r k.val * croutReference sqrt A i k.val := by
  rw [dotLoop_eq_sum,
    Fin.sum_univ_eq_sum_range (fun k => croutReference sqrt A r k * croutReference sqrt A i k) i]

theorem croutPivot_eq (sqrt : α → α) (A : Mat α) (i : Nat) :
    croutPivot sqrt A i = A i i - dotLoop (croutReference sqrt A) i i i := by
  rw [dotLoop_croutReference]
  unfold croutPivot
  congr 1
  exact Finset.sum_congr rfl (fun k _ => sq _)

/-- The reference satisfies the equations of every column whose pivot passes the check. -/
theorem crout_of_reference (sqrt : α → α) (A : Mat α) (i : Nat)
    (hp : EPSILON < croutPivot sqrt A i) :
    CroutColumn sqrt A (croutReference sqrt A) i := by
  refine ⟨?_, ?_, ?_, ?_⟩
  · rw [← croutPivot_eq]; exact hp
  · rw [← croutPivot_eq]; exact croutReference_diag sqrt A i
  · intro r hr _
    rw [dotLoop_croutReference]
    exact croutReference_below sqrt A r i hr
  · intro r hr
    exact croutReference_above sqrt A r i hr

/-- When `T` satisfies the equations on the columns `s .. c-1` and the pivot of
column `c` computed from `T` fails the check, the column loop returns 2 at column
`c`: the columns before `c` hold `T` and the columns from `c` on are untouched. -/
theorem columnLoop_fail_at (sqrt : α → α) (A T : Mat α) (n s c : Nat) (L : Mat α)
    (hsc : s ≤ c) (hcn : c < s + n) (hsn : s + n ≤ N)
    (hL : ∀ r, r < N → ∀ k, k < s → L r k = T r k)
    (hT : ∀ i, s ≤ i → i < c → CroutColumn sqrt A T i)
    (hguard : ∀ i, s ≤ i → i < c → ¬ |T i i| < EPSILON)
    (hfail : A c c - dotLoop T c c c ≤ EPSILON) :
    (columnLoop sqrt A (List.range' s n) L).1 = 2 ∧
    (∀ r, r < N → ∀ k, k < c → (columnLoop sqrt A (List.range' s n) L).2 r k = T r k) ∧
    (∀ r k, c ≤ k → (columnLoop sqrt A (List.range' s n) L).2 r k = L r k) := by
  induction n generalizing s L with
  | zero => omega
  | succ n ih =>
    rw [range'_succ_cons]
    have hdot : ∀ r, r < N → dotLoop L r s s = dotLoop T r s s := fun r hr =>
      dotLoop_congr _ _ _ _ _ (fun k hk => hL r hr k hk) (fun k hk => hL s (by omega) k hk)
    rcases Nat.eq_or_lt_of_le hsc with heq | hlt
    · subst heq
      have h : A s s - dotLoop L s s s ≤ EPSILON := by rw [hdot s (by omega)]; exact hfail
      rw [columnLoop_cons_fail sqrt A s _ L h]
      exact ⟨rfl, fun r hr k hk => hL r hr k hk, fun _ _ _ => rfl⟩
    · obtain ⟨hp, hd, hbelow, habove⟩ := hT s le_rfl hlt
      have h : ¬ A s s - dotLoop L s s s ≤ EPSILON := by
        rw [hdot s (by omega)]; exact not_le.mpr hp
      have hg : s + 1 < N → ¬ |sqrt (A s s - dotLoop L s s s)| < EPSILON := by
        intro _
        rw [hdot s (by omega), ← hd]
        exact hguard s le_rfl hlt
      rw [columnLoop_cons_ok sqrt A s _ L h hg]
      have := ih (s + 1) (columnResult sqrt A L s) (by omega) (by omega) (by omega)
        (by
          intro r hr k hk
          unfold columnResult
          rw [hdot s (by omega), hdot r hr, ← hd]
          by_cases hks : k = s
          · subst hks
            rcases lt_trichotomy r k with h1 | h1 | h1
            · simp [h1, habove r h1]
            · subst h1; simp
            · have h2 : ¬ r < k := by omega
              have h3 : ¬ r = k := by omega
              simp [h2, h3, hr, hbelow r h1 hr]
          · simp only [if_neg hks]
            exact hL r hr k (by omega))
        (fun i h1 h2 => hT i (by omega) h2)
        (fun i h1 h2 => hguard i (by omega) h2)
      refine ⟨this.1, this.2.1, fun r k hk => ?_⟩
      rw [this.2.2 r k hk, columnResult_other_col _ _ _ _ _ _ (by omega)]

/-- Over the reals, when `A` passes the symmetry check and every reference pivot
passes the pivot check, the call returns 0 and the output is the reference. -/
theorem decompose_reference (A L : Mat ℝ)
    (hsym : ∀ i j, i < j → j < N → |A i j - A j i| ≤ EPSILON)
    (hp : ∀ i, i < N → EPSILON < croutPivot Real.sqrt A i) :
    (cholesky_decompose_32x32 Real.sqrt A L).1 = 0 ∧
    ∀ r, r < N → ∀ c, c < N →
      (cholesky_decompose_32x32 Real.sqrt A L).2 r c = croutReference Real.sqrt A r c := by
  have hT : ∀ i, i < N → CroutColumn Real.sqrt A (croutReference Real.sqrt A) i :=
    fun i hi => crout_of_reference Real.sqrt A i (hp i hi)
  exact decompose_run Real.sqrt A _ L hsym hT (fun i hi => crout_guard A _ i (hT i hi))

/-- Over the reals, when `A` passes the symmetry check and `c` is the first column
whose reference pivot fails the pivot check, the call returns 2, the columns
before `c` hold the reference and the columns from `c` on are untouched. -/
theorem decompose_reference_fail (A L : Mat ℝ)
    (hsym : ∀ i j, i < j → j < N → |A i j - A j i| ≤ EPSILON)
    (c : Nat) (hc : c < N) (hfail : croutPivot Real.sqrt A c ≤ EPSILON)
    (hp : ∀ i, i < c → EPSILON < croutPivot Real.sqrt A i) :
    (cholesky_decompose_32x32 Real.sqrt A L).1 = 2 ∧
    (∀ r, r < N → ∀ k, k < c →
      (cholesky_decompose_32x32 Real.sqrt A L).2 r k = croutReference Real.sqrt A r k) ∧
    (∀ r k, c ≤ k → (cholesky_decompose_32x32 Real.sqrt A L).2 r k = L r k) := by
  have hT : ∀ i, i < c → CroutColumn Real.sqrt A (croutReference Real.sqrt A) i :=
    fun i hi => crout_of_reference Real.sqrt A i (hp i hi)
  rw [decompose_of_symmetric Real.sqrt A L ((symmetry_check_false_iff A).mpr hsym)]
  exact columnLoop_fail_at Real.sqrt A (croutReference Real.sqrt A) N 0 c L (Nat.zero_le _)
    (by omega) (by omega) (fun r _ k hk => absurd hk (by omega))
    (fun i _ hi => hT i hi) (fun i _ hi => crout_guard A _ i (hT i hi))
    (by rw [← croutPivot_eq]; exact hfail)

/-- When some reference pivot among the first `n` fails the check, there is a
first one. -/
theorem exists_first_failing_pivot (sqrt : α → α) (A : Mat α) (n : Nat)
    (h : ¬ ∀ i, i < n → EPSILON < croutPivot sqrt A i) :
    ∃ c, c < n ∧ croutPivot sqrt A c ≤ EPSILON ∧ ∀ i, i < c → EPSILON < croutPivot sqrt A i := by
  induction n with
  | zero => exact absurd (fun i hi => absurd hi (by omega)) h
  | succ n ih =>
    by_cases hn : ∀ i, i < n → EPSILON < croutPivot sqrt A i
    · refine ⟨n, by omega, ?_, hn⟩
      by_contra hc
      apply h
      intro i hi
      rcases Nat.eq_or_lt_of_le (Nat.le_of_lt_succ hi) with heq | hlt
      · rw [heq]; exact lt_of_not_ge hc
      · exact hn i hlt
    · obtain ⟨c, hc, hfail, hmin⟩ := ih hn
      exact ⟨c, by omega, hfail, hmin⟩

/-- C13 amended, agreement with the Cholesky-Crout reference: modelling doubles as
exact real numbers, with the real square root, for `A` passing the symmetry
check, the call returns 0 if and only if every reference pivot `p_i`, `i < 32`,
exceeds 1e-10, and returns 2 otherwise; in that case, with `c` the first column
whose pivot fails, the columns before `c` hold the reference (zero above the
diagonal) and the columns from `c` on are untouched; on return 0 the lower
triangle of `L` is the reference `R`. -/
theorem crout_reference_agreement (A L0 : Mat ℝ)
    (hsym : ∀ i j, i < j → j < 32 → |A i j - A j i| ≤ 1e-10) :
    ((cholesky_decompose_32x32 Real.sqrt A L0).1 = 0 ↔
      ∀ i, i < 32 → 1e-10 < croutPivot Real.sqrt A i) ∧
    ((¬ ∀ i, i < 32 → 1e-10 < croutPivot Real.sqrt A i) →
      (cholesky_decompose_32x32 Real.sqrt A L0).1 = 2) ∧
    (∀ c, c < 32 → croutPivot Real.sqrt A c ≤ 1e-10 →
      (∀ i, i < c → 1e-10 < croutPivot Real.sqrt A i) →
      (∀ r i, r < 32 → i < c →
        (i ≤ r → (cholesky_decompose_32x32 Real.sqrt A L0).2 r i = croutReference Real.sqrt A r i) ∧
        (r < i → (cholesky_decompose_32x32 Real.sqrt A L0).2 r i = 0)) ∧
      (∀ r i, c ≤ i → (cholesky_decompose_32x32 Real.sqrt A L0).2 r i = L0 r i)) ∧
    ((cholesky_decompose_32x32 Real.sqrt A L0).1 = 0 →
      ∀ i j, i ≤ j → j < 32 →
        (cholesky_decompose_32x32 Real.sqrt A L0).2 j i = croutReference Real.sqrt A j i) := by
  have hotherwise : (¬ ∀ i, i < 32 → 1e-10 < croutPivot Real.sqrt A i) →
      (cholesky_decompose_32x32 Real.sqrt A L0).1 = 2 := by
    intro hnot
    obtain ⟨c, hc, hfail, hmin⟩ := exists_first_failing_pivot Real.sqrt A 32 hnot
    exact (decompose_reference_fail A L0 hsym c hc hfail hmin).1
  have hall : (cholesky_decompose_32x32 Real.sqrt A L0).1 = 0 →
      ∀ i, i < 32 → 1e-10 < croutPivot Real.sqrt A i := by
    intro h0
    by_contra hnot
    rw [hotherwise hnot] at h0
    exact absurd h0 (by decide)
  refine ⟨⟨hall, fun hp => (decompose_reference A L0 hsym hp).1⟩, hotherwise, ?_, ?_⟩
  · intro c hc hfail hmin
    have h := decompose_reference_fail A L0 hsym c hc hfail hmin
    refine ⟨fun r i hr hi => ⟨fun _ => h.2.1 r hr i hi, fun hri => ?_⟩, h.2.2⟩
    rw [h.2.1 r hr i hi]
    exact croutReference_above Real.sqrt A r i hri
  · intro h0 i j hij hj
    exact (decompose_reference A L0 hsym (hall h0)).2 j hj i (lt_of_le_of_lt hij hj)

/-- Instance of C13 amended at the identity matrix. -/
theorem crout_reference_agreement_witness :
    ((cholesky_decompose_32x32 Real.sqrt (fun i j => if i = j then (1 : ℝ) else 0)
        (fun _ _ => 0)).1 = 0 ↔
      ∀ i, i < 32 → 1e-10 < croutPivot Real.sqrt (fun i j => if i = j then (1 : ℝ) else 0) i) :=
  (crout_reference_agreement (fun i j => if i = j then (1 : ℝ) else 0) (fun _ _ => 0)
    (fun i j hij _ => by
      have h2 : ¬ i = j := by omega
      have h3 : ¬ j = i := by omega
      simp only [h2, h3, if_false, sub_zero, abs_zero]
      norm_num)).1

/-! ### The block-diagonal test matrix -/

theorem blockFold_apply (n r c : Nat) :
    (List.range n).foldl blockStep (fun _ _ => (0 : α)) r c
      = if r / 2 = c / 2 ∧ r < 2 * n then (if r = c then 4 else 1) else 0 := by
  induction n generalizing r c with
  | zero => simp
  | succ n ih =>
    rw [List.range_succ, List.foldl_append]
    simp only [List.foldl_cons, List.foldl_nil, blockStep, store_apply, ih]
    split_ifs <;> first | rfl | (exfalso; omega)

/-- The test matrix has 4 on the diagonal, 1 on the two other cells of each 2×2
diagonal block of the 32×32 array, and 0 elsewhere. -/
theorem known_exact_matrix_apply (r c : Nat) :
    (known_exact_matrix : Mat α) r c
      = if r / 2 = c / 2 ∧ r < 32 then (if r = c then 4 else 1) else 0 := by
  unfold known_exact_matrix
  rw [blockFold_apply]
  rfl

theorem known_exact_matrix_symm (r c : Nat) :
    (known_exact_matrix : Mat α) r c = known_exact_matrix c r := by
  rw [known_exact_matrix_apply, known_exact_matrix_apply]
  split_ifs <;> first | rfl | (exfalso; omega)

theorem sqrt_four : Real.sqrt 4 = 2 := by
  rw [show (4 : ℝ) = 2 * 2 by norm_num, Real.sqrt_mul_self (by norm_num)]

theorem sqrt_fifteen_quarters : Real.sqrt (15 / 4) = Real.sqrt 15 / 2 := by
  rw [Real.sqrt_div (by norm_num), sqrt_four]

/-- Row `r` times row `i` of the stated factor over the columns before an even `i` is 0. -/
theorem known_exact_factor_dot_even (sqrt : α → α) (r i : Nat) (hi : i % 2 = 0) :
    dotLoop (known_exact_factor sqrt) r i i = 0 := by
  apply dotLoop_zero
  intro k hk
  unfold known_exact_factor
  rw [if_neg (by omega), if_neg (by omega)]

/-- Row `r` times row `m + 1` of the stated factor over the columns before an odd
`m + 1` reduces to the term of column `m`. -/
theorem known_exact_factor_dot_odd (sqrt : α → α) (r m : Nat) (hm : m % 2 = 0) :
    dotLoop (known_exact_factor sqrt) r (m + 1) (m + 1)
      = known_exact_factor sqrt r m * (1 / 2) := by
  have h0 : dotLoop (known_exact_factor sqrt) r (m + 1) m = 0 := by
    apply dotLoop_zero
    intro k hk
    unfold known_exact_factor
    rw [if_neg (by omega), if_neg (by omega)]
  have h1 : known_exact_factor sqrt (m + 1) m = 1 / 2 := by
    unfold known_exact_factor
    rw [if_neg (by omega), if_pos ⟨rfl, hm⟩]
  show dotLoop (known_exact_factor sqrt) r (m + 1) m
      + known_exact_factor sqrt r m * known_exact_factor sqrt (m + 1) m = _
  rw [h0, h1, zero_add]

/-- The stated factor satisfies the Cholesky-Crout equations for the test matrix. -/
theorem crout_of_known_exact (i : Nat) (hi : i < N) :
    CroutColumn Real.sqrt known_exact_matrix (known_exact_factor Real.sqrt) i := by
  have hi32 : i < 32 := hi
  rcases Nat.mod_two_eq_zero_or_one i with he | ho
  · -- even column
    have hdot := fun r => known_exact_factor_dot_even Real.sqrt r i he
    have hAii : (known_exact_matrix : Mat ℝ) i i = 4 := by
      rw [known_exact_matrix_apply, if_pos ⟨rfl, hi32⟩, if_pos rfl]
    have hTii : known_exact_factor Real.sqrt i i = 2 := by
      unfold known_exact_factor
      rw [if_pos rfl, if_pos he]
    refine ⟨?_, ?_, ?_, ?_⟩
    · rw [hdot, hAii, EPSILON_eq]; norm_num
    · rw [hdot, hAii, sub_zero, sqrt_four, hTii]
    · intro r hr hrN
      have hr32 : r < 32 := hrN
      rw [hdot, hTii, sub_zero, known_exact_matrix_apply]
      unfold known_exact_factor
      rw [if_neg (by omega)]
      by_cases h1 : r = i + 1
      · rw [if_pos ⟨h1, he⟩, if_pos ⟨by omega, hr32⟩, if_neg (by omega)]
      · have h2 : ¬ (r = i + 1 ∧ i % 2 = 0) := fun h => h1 h.1
        have h3 : ¬ (r / 2 = i / 2 ∧ r < 32) := fun h => by omega
        rw [if_neg h2, if_neg h3, zero_div]
    · intro r hr
      unfold known_exact_factor
      have h2 : ¬ (r = i + 1 ∧ i % 2 = 0) := fun h => by omega
      rw [if_neg (by omega), if_neg h2]
  · -- odd column
    obtain ⟨m, rfl⟩ : ∃ m, i = m + 1 := ⟨i - 1, by omega⟩
    have hm : m % 2 = 0 := by omega
    have hdot := fun r => known_exact_factor_dot_odd Real.sqrt r m hm
    have hAii : (known_exact_matrix : Mat ℝ) (m + 1) (m + 1) = 4 := by
      rw [known_exact_matrix_apply, if_pos ⟨rfl, hi32⟩, if_pos rfl]
    have hTim : known_exact_factor Real.sqrt (m + 1) m = 1 / 2 := by
      unfold known_exact_factor
      rw [if_neg (by omega), if_pos ⟨rfl, hm⟩]
    have hTii : known_exact_factor Real.sqrt (m + 1) (m + 1) = Real.sqrt 15 / 2 := by
      unfold known_exact_factor
      rw [if_pos rfl, if_neg (by omega)]
    have hpiv : (known_exact_matrix : Mat ℝ) (m + 1) (m + 1)
        - dotLoop (known_exact_factor Real.sqrt) (m + 1) (m + 1) (m + 1) = 15 / 4 := by
      rw [hdot, hAii, hTim]; norm_num
    refine ⟨?_, ?_, ?_, ?_⟩
    · rw [hpiv, EPSILON_eq]; norm_num
    · rw [hpiv, sqrt_fifteen_quarters, hTii]
    · intro r hr hrN
      have h2 : ¬ (r = m + 1 + 1 ∧ (m + 1) % 2 = 0) := fun h => by omega
      have h3 : ¬ (r / 2 = (m + 1) / 2 ∧ r < 32) := fun h => by omega
      have h4 : ¬ (r = m + 1 ∧ m % 2 = 0) := fun h => by omega
      have hTrm : known_exact_factor Real.sqrt r m = 0 := by
        unfold known_exact_factor
        rw [if_neg (by omega), if_neg h4]
      have hTri : known_exact_factor Real.sqrt r (m + 1) = 0 := by
        unfold known_exact_factor
        rw [if_neg (by omega), if_neg h2]
      rw [hdot, hTrm, known_exact_matrix_apply, if_neg h3, hTri]
      simp
    · intro r hr
      unfold known_exact_factor
      have h2 : ¬ (r = m + 1 + 1 ∧ (m + 1) % 2 = 0) := fun h => by omega
      rw [if_neg (by omega), if_neg h2]

/-- Over the reals, a successful call on an exactly symmetric matrix reconstructs
every cell of `A` exactly. -/
theorem decompose_reconstruct_exact (A L Lt0 C0 : Mat ℝ)
    (h0 : (cholesky_decompose_32x32 Real.sqrt A L).1 = 0)
    (hsym : ∀ i j, i < N → j < N → A i j = A j i)
    (i j : Nat) (hi : i < N) (hj : j < N) :
    reconstruct (cholesky_decompose_32x32 Real.sqrt A L).2 Lt0 C0 i j = A i j := by
  rw [reconstruct_apply _ Lt0 C0 i j hi hj]
  rcases Nat.le_total j i with hji | hij
  · exact decompose_reconstruct_lower A L h0 i j hi hji
  · rw [dotLoop_comm, decompose_reconstruct_lower A L h0 j i hj hij]
    exact hsym j i hj hi

/-- The test matrix is decomposed into the stated factor. -/
theorem decompose_known_exact (L : Mat ℝ) :
    (cholesky_decompose_32x32 Real.sqrt known_exact_matrix L).1 = 0 ∧
    ∀ r, r < N → ∀ c, c < N →
      (cholesky_decompose_32x32 Real.sqrt known_exact_matrix L).2 r c
        = known_exact_factor Real.sqrt r c := by
  refine decompose_run Real.sqrt known_exact_matrix (known_exact_factor Real.sqrt) L ?_
    crout_of_known_exact (fun i hi => crout_guard _ _ i (crout_of_known_exact i hi))
  intro i j _ _
  rw [known_exact_matrix_symm i j, sub_self, abs_zero]
  exact le_of_lt EPSILON_pos

/-- C11, block-diagonal exact case: over the reals, on the matrix of
`test_known_exact_decomposition` the call returns 0 with `L[2b][2b] = 2`,
`L[2b+1][2b] = 1/2`, `L[2b+1][2b+1] = sqrt(15)/2` for each block `b < 16` and
every other entry 0, and `L × Lᵗ` equals `A`, hence is within 1e-10 of it. -/
theorem block_diagonal_exact_case (L0 Lt0 C0 : Mat ℝ) :
    (cholesky_decompose_32x32 Real.sqrt known_exact_matrix L0).1 = 0 ∧
    (∀ b, b < 16 →
      (cholesky_decompose_32x32 Real.sqrt known_exact_matrix L0).2 (2 * b) (2 * b) = 2 ∧
      (cholesky_decompose_32x32 Real.sqrt known_exact_matrix L0).2 (2 * b + 1) (2 * b) = 1 / 2 ∧
      (cholesky_decompose_32x32 Real.sqrt known_exact_matrix L0).2 (2 * b + 1) (2 * b + 1)
        = Real.sqrt 15 / 2) ∧
    (∀ i j, i < 32 → j < 32 → i ≠ j → ¬ (i = j + 1 ∧ j % 2 = 0) →
      (cholesky_decompose_32x32 Real.sqrt known_exact_matrix L0).2 i j = 0) ∧
    (∀ i j, i < 32 → j < 32 →
      reconstruct (cholesky_decompose_32x32 Real.sqrt known_exact_matrix L0).2 Lt0 C0 i j
        = known_exact_matrix i j ∧
      |reconstruct (cholesky_decompose_32x32 Real.sqrt known_exact_matrix L0).2 Lt0 C0 i j
        - known_exact_matrix i j| ≤ 1e-10) := by
  have h := decompose_known_exact L0
  refine ⟨h.1, ?_, ?_, ?_⟩
  · intro b hb
    have h1 : 2 * b < N := by unfold N; omega
    have h2 : 2 * b + 1 < N := by unfold N; omega
    rw [h.2 _ h1 _ h1, h.2 _ h2 _ h1, h.2 _ h2 _ h2]
    unfold known_exact_factor
    have e1 : (2 * b) % 2 = 0 := by omega
    have e2 : ¬ (2 * b + 1) % 2 = 0 := by omega
    have e3 : ¬ (2 * b + 1 = 2 * b) := by omega
    simp only [e1, e2, e3, if_true, if_false, and_self]
  · intro i j hi hj hne hnb
    rw [h.2 i hi j hj]
    unfold known_exact_factor
    rw [if_neg hne, if_neg hnb]
  · intro i j hi hj
    have he := decompose_reconstruct_exact known_exact_matrix L0 Lt0 C0 h.1
      (fun a b _ _ => known_exact_matrix_symm a b) i j hi hj
    refine ⟨he, ?_⟩
    rw [he, sub_self, abs_zero]
    norm_num

/-! ### The function called with one buffer for `A` and `L` -/

/-- In the off-diagonal loop every `A[j][i]` is read before `L[j][i]` is written:
on one buffer the loop does what it does on two, as long as the cells of column
`i` it has not reached yet still hold `A`. -/
theorem offDiagLoopInPlace_eq (A : Mat α) (i : Nat) (js : List Nat) (B : Mat α)
    (hnd : js.Nodup) (h : ∀ j, j ∈ js → B j i = A j i) :
    offDiagLoopInPlace i js B = offDiagLoop A i js B := by
  induction js generalizing B with
  | nil => rfl
  | cons j js ih =>
    rw [offDiagLoopInPlace, offDiagLoop, h j (List.mem_cons_self _ _)]
    by_cases hg : |B i i| < EPSILON
    · simp only [if_pos hg]
    · simp only [if_neg hg]
      have hj : j ∉ js := (List.nodup_cons.mp hnd).1
      apply ih _ (List.nodup_cons.mp hnd).2
      intro k hk
      have hkj : k ≠ j := fun e => hj (by rw [← e]; exact hk)
      rw [store_other_row _ _ _ _ _ _ hkj]
      exact h k (List.mem_cons_of_mem _ hk)

/-- One iteration of the column loop on one buffer is the iteration on two
buffers that start with the same content. -/
theorem columnLoopInPlace_cons (sqrt : α → α) (i : Nat) (is : List Nat) (B : Mat α) :
    columnLoopInPlace sqrt (i :: is) B =
      if (columnLoop sqrt B [i] B).1 ≠ 0 then columnLoop sqrt B [i] B
      else columnLoopInPlace sqrt is (columnLoop sqrt B [i] B).2 := by
  have hoff : ∀ v : α,
      offDiagLoopInPlace i (List.range' (i + 1) (N - (i + 1))) (store B i i v)
        = offDiagLoop B i (List.range' (i + 1) (N - (i + 1))) (store B i i v) := fun v =>
    offDiagLoopInPlace_eq B i _ _ (List.nodup_range' _ _) (fun j hj => by
      rw [List.mem_range'_1] at hj
      exact store_other_row _ _ _ _ _ _ (by omega))
  rw [columnLoopInPlace, columnLoop]
  simp only [hoff]
  by_cases hp : B i i - dotLoop B i i i ≤ EPSILON
  · simp only [if_pos hp]
    simp
  · simp only [if_neg hp]
    by_cases hr : (offDiagLoop B i (List.range' (i + 1) (N - (i + 1)))
        (store B i i (sqrt (B i i - dotLoop B i i i)))).1 ≠ 0
    · simp only [if_pos hr]
    · simp only [if_neg hr, columnLoop]
      simp

theorem columnLoopInPlace_cons_fail (sqrt : α → α) (i : Nat) (is : List Nat) (B : Mat α)
    (h : B i i - dotLoop B i i i ≤ EPSILON) :
    columnLoopInPlace sqrt (i :: is) B = (2, B) := by
  rw [columnLoopInPlace_cons, columnLoop_cons_fail sqrt B i [] B h]
  simp

theorem columnLoopInPlace_cons_guard (sqrt : α → α) (i : Nat) (is : List Nat) (B : Mat α)
    (h : ¬ B i i - dotLoop B i i i ≤ EPSILON) (hi : i + 1 < N)
    (hg : |sqrt (B i i - dotLoop B i i i)| < EPSILON) :
    (columnLoopInPlace sqrt (i :: is) B).1 = 3 := by
  have h3 := columnLoop_cons_guard sqrt B i [] B h hi hg
  rw [columnLoopInPlace_cons, if_pos (by rw [h3]; decide)]
  exact h3

theorem columnLoopInPlace_cons_ok (sqrt : α → α) (i : Nat) (is : List Nat) (B : Mat α)
    (h : ¬ B i i - dotLoop B i i i ≤ EPSILON)
    (hg : i + 1 < N → ¬ |sqrt (B i i - dotLoop B i i i)| < EPSILON) :
    columnLoopInPlace sqrt (i :: is) B = columnLoopInPlace sqrt is (columnResult sqrt B B i) := by
  have hstep : columnLoop sqrt B [i] B = (0, columnResult sqrt B B i) :=
    columnLoop_cons_ok sqrt B i [] B h hg
  rw [columnLoopInPlace_cons, hstep]
  simp

/-- The column loop on one buffer follows the column loop on two buffers: when
the columns before `s` of the single buffer hold the factor computed so far and
its cells on and below the diagonal in the columns from `s` on still hold `A`,
both runs return the same code and, on return 0, the same 32×32 cells. -/
theorem columnLoopInPlace_follows (sqrt : α → α) (A : Mat α) (n s : Nat) (B L : Mat α)
    (hsn : s + n ≤ N)
    (hleft : ∀ r, r < N → ∀ c, c < s → B r c = L r c)
    (hright : ∀ r c, s ≤ c → c ≤ r → r < N → B r c = A r c) :
    (columnLoopInPlace sqrt (List.range' s n) B).1 = (columnLoop sqrt A (List.range' s n) L).1 ∧
    ((columnLoopInPlace sqrt (List.range' s n) B).1 = 0 →
      ∀ r, r < N → ∀ c, c < s + n →
        (columnLoopInPlace sqrt (List.range' s n) B).2 r c
          = (columnLoop sqrt A (List.range' s n) L).2 r c) := by
  induction n generalizing s B L with
  | zero =>
    exact ⟨rfl, fun _ r hr c hc => hleft r hr c (by omega)⟩
  | succ n ih =>
    rw [range'_succ_cons]
    have hdot : ∀ r, r < N → dotLoop B r s s = dotLoop L r s s := fun r hr =>
      dotLoop_congr _ _ _ _ _ (fun k hk => hleft r hr k hk)
        (fun k hk => hleft s (by omega) k hk)
    have hcell : ∀ r, s ≤ r → r < N → B r s = A r s := fun r h1 h2 => hright r s le_rfl h1 h2
    have hpiv : B s s - dotLoop B s s s = A s s - dotLoop L s s s := by
      rw [hdot s (by omega), hcell s le_rfl (by omega)]
    by_cases h : A s s - dotLoop L s s s ≤ EPSILON
    · rw [columnLoop_cons_fail sqrt A s _ L h,
        columnLoopInPlace_cons_fail sqrt s _ B (by rw [hpiv]; exact h)]
      exact ⟨rfl, fun h0 => absurd h0 (by simp)⟩
    · have hB : ¬ B s s - dotLoop B s s s ≤ EPSILON := by rw [hpiv]; exact h
      by_cases hg : s + 1 < N → ¬ |sqrt (A s s - dotLoop L s s s)| < EPSILON
      · have hgB : s + 1 < N → ¬ |sqrt (B s s - dotLoop B s s s)| < EPSILON := by
          rw [hpiv]; exact hg
        rw [columnLoop_cons_ok sqrt A s _ L h hg, columnLoopInPlace_cons_ok sqrt s _ B hB hgB]
        have := ih (s + 1) (columnResult sqrt B B s) (columnResult sqrt A L s) (by omega)
          (by
            intro r hr c hc
            unfold columnResult
            rw [hpiv, hdot r hr]
            by_cases hcs : c = s
            · subst hcs
              rcases lt_trichotomy r c with h1 | h1 | h1
              · simp [h1]
              · subst h1; simp
              · have h2 : ¬ r < c := by omega
                have h3 : ¬ r = c := by omega
                simp [h2, h3, hr, hcell r (le_of_lt h1) hr]
            · simp only [if_neg hcs]
              exact hleft r hr c (by omega))
          (by
            intro r c hsc hcr hr
            rw [columnResult_other_col _ _ _ _ _ _ (by omega)]
            exact hright r c (by omega) hcr hr)
        exact ⟨this.1, fun h0 r hr c hc => this.2 h0 r hr c (by omega)⟩
      · push_neg at hg
        rw [columnLoop_cons_guard sqrt A s _ L h hg.1 hg.2,
          columnLoopInPlace_cons_guard sqrt s _ B hB hg.1 (by rw [hpiv]; exact hg.2)]
        exact ⟨rfl, fun h0 => absurd h0 (by decide)⟩

/-- C16, in-place operation is equivalent to out-of-place operation: whatever the
arithmetic and the square root, the function run on a single buffer that holds
`A` returns the same code as the call on distinct buffers and, when that code is
0, leaves in the buffer the 32×32 matrix `L` produced out of place. -/
theorem inplace_equivalent (sqrt : α → α) (A L0 : Mat α) :
    (cholesky_decompose_32x32_inplace sqrt A).1 = (cholesky_decompose_32x32 sqrt A L0).1 ∧
    ((cholesky_decompose_32x32_inplace sqrt A).1 = 0 →
      ∀ i j, i < 32 → j < 32 →
        (cholesky_decompose_32x32_inplace sqrt A).2 i j
          = (cholesky_decompose_32x32 sqrt A L0).2 i j) := by
  cases h : symmetryOuter A (List.range N)
  · have hin : cholesky_decompose_32x32_inplace sqrt A
        = columnLoopInPlace sqrt (List.range' 0 N) A := by
      unfold cholesky_decompose_32x32_inplace
      rw [h, range_N_eq]
      simp
    rw [hin, decompose_of_symmetric sqrt A L0 h]
    have := columnLoopInPlace_follows sqrt A N 0 A L0 (by omega)
      (fun r _ c hc => absurd hc (by omega)) (fun _ _ _ _ _ => rfl)
    exact ⟨this.1, fun h0 i j hi hj => this.2 h0 i hi j (by rw [Nat.zero_add]; exact hj)⟩
  · have hin : cholesky_decompose_32x32_inplace sqrt A = (1, A) := by
      unfold cholesky_decompose_32x32_inplace
      rw [h]
      simp
    rw [hin, decompose_of_not_symmetric sqrt A L0 h]
    exact ⟨rfl, fun h0 => absurd h0 (by simp)⟩

/-! ### The function in IEEE-754 binary64 arithmetic -/

theorem symmetryInnerF_pass (A : Mat F64) (i : Nat) (js : List Nat)
    (h : ∀ j, j ∈ js → F64.lt EPSILON_F64 (F64.abs (F64.sub (A i j) (A j i))) = false) :
    symmetryInnerF A i js = false := by
  induction js with
  | nil => rfl
  | cons j js ih =>
    rw [symmetryInnerF, h j (List.mem_cons_self _ _)]
    simp only [Bool.false_eq_true, if_false]
    exact ih (fun k hk => h k (List.mem_cons_of_mem _ hk))

theorem symmetryOuterF_pass (A : Mat F64) (is : List Nat)
    (h : ∀ i j, i < j → j < N →
      F64.lt EPSILON_F64 (F64.abs (F64.sub (A i j) (A j i))) = false) :
    symmetryOuterF A is = false := by
  induction is with
  | nil => rfl
  | cons i is ih =>
    rw [symmetryOuterF, symmetryInnerF_pass A i _ (fun j hj => by
      rw [List.mem_range'_1] at hj
      exact h i j (by omega) (by omega))]
    simp only [Bool.false_eq_true, if_false]
    exact ih

theorem dotLoopF_congr (L L' : Mat F64) (r1 r2 n : Nat)
    (h1 : ∀ k < n, L r1 k = L' r1 k) (h2 : ∀ k < n, L r2 k = L' r2 k) :
    dotLoopF L r1 r2 n = dotLoopF L' r1 r2 n := by
  induction n with
  | zero => rfl
  | succ n ih =>
    show F64.add (dotLoopF L r1 r2 n) (F64.mul (L r1 n) (L r2 n))
      = F64.add (dotLoopF L' r1 r2 n) (F64.mul (L' r1 n) (L' r2 n))
    rw [ih (fun k hk => h1 k (by omega)) (fun k hk => h2 k (by omega)),
      h1 n (by omega), h2 n (by omega)]

theorem zeroLoopF_apply (i : Nat) (js : List Nat) (L : Mat F64) (r c : Nat) :
    zeroLoopF i js L r c = if c = i ∧ r ∈ js then F64.zero else L r c := by
  induction js generalizing L with
  | nil => simp [zeroLoopF]
  | cons j js ih =>
    rw [zeroLoopF, ih]
    show (if c = i ∧ r ∈ js then F64.zero
      else if r = j ∧ c = i then F64.zero else L r c) = _
    by_cases hc : c = i
    · by_cases hr : r = j
      · simp [hc, hr]
      · simp [hc, hr]
    · simp [hc]

/-- When the division guard does not fire, the off-diagonal loop on doubles runs
to its end and writes the quotients in the listed rows of column `i`. -/
theorem offDiagLoopF_spec (A : Mat F64) (i : Nat) (js : List Nat) (L : Mat F64)
    (hi : i ∉ js) (hg : F64.lt (F64.abs (L i i)) EPSILON_F64 = false) :
    ∃ L', offDiagLoopF A i js L = (0, L') ∧
      ∀ r c, L' r c =
        if c = i ∧ r ∈ js then F64.div (F64.sub (A r i) (dotLoopF L r i i)) (L i i)
        else L r c := by
  induction js generalizing L with
  | nil => exact ⟨L, rfl, by simp⟩
  | cons j js ih =>
    have hji : j ≠ i := fun h => hi (by simp [h])
    have hi' : i ∉ js := fun h => hi (List.mem_cons_of_mem _ h)
    have hii : store L j i (F64.div (F64.sub (A j i) (dotLoopF L j i i)) (L i i)) i i = L i i := by
      show (if i = j ∧ i = i then _ else L i i) = L i i
      rw [if_neg (fun h => hji h.1.symm)]
    obtain ⟨L', hrun, hL'⟩ := ih
      (store L j i (F64.div (F64.sub (A j i) (dotLoopF L j i i)) (L i i))) hi'
      (by rw [hii]; exact hg)
    refine ⟨L', ?_, ?_⟩
    · rw [offDiagLoopF, hg]
      simp only [Bool.false_eq_true, if_false]
      exact hrun
    · intro r c
      rw [hL' r c, hii]
      have hcol : ∀ (r' k : Nat), k < i →
          store L j i (F64.div (F64.sub (A j i) (dotLoopF L j i i)) (L i i)) r' k = L r' k := by
        intro r' k hk
        show (if r' = j ∧ k = i then _ else L r' k) = L r' k
        rw [if_neg (fun h => by omega)]
      have hdot : dotLoopF (store L j i (F64.div (F64.sub (A j i) (dotLoopF L j i i)) (L i i)))
          r i i = dotLoopF L r i i :=
        dotLoopF_congr _ _ _ _ _ (fun k hk => hcol r k hk) (fun k hk => hcol i k hk)
      rw [hdot]
      show (if c = i ∧ r ∈ js then _ else if r = j ∧ c = i then _ else L r c) = _
      by_cases hc : c = i
      · by_cases hr : r = j
        · subst hr; subst hc
          by_cases hm : r ∈ js <;> simp [hm]
        · simp [hc, hr]
      · simp [hc]

/-- Both checks pass on doubles: the iteration of column `i` fills the column and
the loop goes on with the next columns. -/
theorem columnLoopF_cons_ok (A : Mat F64) (i : Nat) (is : List Nat) (L : Mat F64)
    (h : F64.le (F64.sub (A i i) (dotLoopF L i i i)) EPSILON_F64 = false)
    (hg : F64.lt (F64.abs (F64.sqrt (F64.sub (A i i) (dotLoopF L i i i)))) EPSILON_F64 = false) :
    columnLoopF A (i :: is) L = columnLoopF A is (columnResultF A L i) := by
  have hsame : store L i i (F64.sqrt (F64.sub (A i i) (dotLoopF L i i i))) i i
      = F64.sqrt (F64.sub (A i i) (dotLoopF L i i i)) := by
    show (if i = i ∧ i = i then _ else L i i) = _
    rw [if_pos ⟨rfl, rfl⟩]
  obtain ⟨L', hrun, hL'⟩ := offDiagLoopF_spec A i (List.range' (i + 1) (N - (i + 1)))
    (store L i i (F64.sqrt (F64.sub (A i i) (dotLoopF L i i i))))
    (by rw [List.mem_range'_1]; omega)
    (by rw [hsame]; exact hg)
  have hstep : columnLoopF A (i :: is) L
      = columnLoopF A is (zeroLoopF i (List.range i) L') := by
    conv_lhs => unfold columnLoopF
    simp only [h, hrun, ne_eq, not_true_eq_false, if_false, Bool.false_eq_true]
  rw [hstep]
  congr 1
  funext r c
  rw [zeroLoopF_apply, hL' r c, hsame]
  have hcol : ∀ (r' k : Nat), k < i →
      store L i i (F64.sqrt (F64.sub (A i i) (dotLoopF L i i i))) r' k = L r' k := by
    intro r' k hk
    show (if r' = i ∧ k = i then _ else L r' k) = L r' k
    rw [if_neg (fun h => by omega)]
  have hdot : dotLoopF (store L i i (F64.sqrt (F64.sub (A i i) (dotLoopF L i i i)))) r i i
      = dotLoopF L r i i :=
    dotLoopF_congr _ _ _ _ _ (fun k hk => hcol r k hk) (fun k hk => hcol i k hk)
  rw [hdot]
  simp only [List.mem_range, List.mem_range'_1]
  show _ = columnResultF A L i r c
  unfold columnResultF
  have hst : store L i i (F64.sqrt (F64.sub (A i i) (dotLoopF L i i i))) r c
      = if r = i ∧ c = i then F64.sqrt (F64.sub (A i i) (dotLoopF L i i i)) else L r c := rfl
  rw [hst]
  by_cases hc : c = i
  · subst hc
    rcases lt_trichotomy r c with hlt | heq | hgt
    · simp [hlt]
    · subst heq; simp
    · have h1 : ¬ r < c := by omega
      have h2 : ¬ r = c := by omega
      by_cases hN : r < N
      · have h4 : c + 1 ≤ r ∧ r < c + 1 + (N - (c + 1)) := ⟨by omega, by omega⟩
        simp [h1, h2, hN, h4]
      · have h4 : ¬ (c + 1 ≤ r ∧ r < c + 1 + (N - (c + 1))) := fun hx => hN (by omega)
        simp [h1, h2, hN, h4]
  · simp [hc]

/-- When `T` is what the function computes on doubles in the columns
`s .. s+n-1`, with both checks passing, and the buffer already holds `T` on the
columns before `s`, the column loop on doubles returns 0 and leaves `T` on the
columns before `s + n`. -/
theorem columnLoopF_run (A T : Mat F64) (n s : Nat) (L : Mat F64)
    (hsn : s + n ≤ N) (hL : ∀ r, r < N → ∀ c, c < s → L r c = T r c)
    (hT : ∀ i, s ≤ i → i < s + n → CroutColumnF A T i) :
    (columnLoopF A (List.range' s n) L).1 = 0 ∧
    ∀ r, r < N → ∀ c, c < s + n → (columnLoopF A (List.range' s n) L).2 r c = T r c := by
  induction n generalizing s L with
  | zero =>
    exact ⟨rfl, fun r hr c hc => hL r hr c (by omega)⟩
  | succ n ih =>
    rw [range'_succ_cons]
    have hdot : ∀ r, r < N → dotLoopF L r s s = dotLoopF T r s s := fun r hr =>
      dotLoopF_congr _ _ _ _ _ (fun k hk => hL r hr k hk) (fun k hk => hL s (by omega) k hk)
    obtain ⟨hp, hd, hgd, hbelow, habove⟩ := hT s le_rfl (by omega)
    have h : F64.le (F64.sub (A s s) (dotLoopF L s s s)) EPSILON_F64 = false := by
      rw [hdot s (by omega)]; exact hp
    have hg : F64.lt (F64.abs (F64.sqrt (F64.sub (A s s) (dotLoopF L s s s)))) EPSILON_F64
        = false := by
      rw [hdot s (by omega), ← hd]; exact hgd
    rw [columnLoopF_cons_ok A s _ L h hg]
    have := ih (s + 1) (columnResultF A L s) (by omega)
      (by
        intro r hr c hc
        unfold columnResultF
        rw [hdot s (by omega), hdot r hr, ← hd]
        by_cases hcs : c = s
        · subst hcs
          rcases lt_trichotomy r c with hlt | heq | hgt
          · simp [hlt, habove r hlt]
          · subst heq; simp
          · have h1 : ¬ r < c := by omega
            have h2 : ¬ r = c := by omega
            simp [h1, h2, hr, hbelow r hgt hr]
        · simp only [if_neg hcs]
          exact hL r hr c (by omega))
      (fun i h1 h2 => hT i (by omega) (by omega))
    exact ⟨this.1, fun r hr c hc => this.2 r hr c (by omega)⟩

/-- When `A` passes the symmetry validation on doubles and `T` is what the
function computes on doubles in every column, with both checks passing, the call
on doubles returns 0 and the output holds `T`. -/
theorem decompose_f64_run (A T L : Mat F64)
    (hsym : ∀ i j, i < j → j < N →
      F64.lt EPSILON_F64 (F64.abs (F64.sub (A i j) (A j i))) = false)
    (hT : ∀ i, i < N → CroutColumnF A T i) :
    (cholesky_decompose_32x32_f64 A L).1 = 0 ∧
    ∀ r, r < N → ∀ c, c < N → (cholesky_decompose_32x32_f64 A L).2 r c = T r c := by
  unfold cholesky_decompose_32x32_f64
  rw [symmetryOuterF_pass A _ hsym, range_N_eq]
  simp only [Bool.false_eq_true, if_false]
  have := columnLoopF_run A T N 0 L (by omega) (fun r _ c hc => absurd hc (by omega))
    (fun i _ hi => hT i (by omega))
  exact ⟨this.1, fun r hr c hc => this.2 r hr c (by omega)⟩

/-! ### Two finite, exactly symmetric inputs that are not positive definite -/

set_option maxRecDepth 100000
set_option exponentiation.threshold 2200

theorem F64.add_nan_right (x : F64) : F64.add x F64.nan = F64.nan := by
  cases x <;> rfl

theorem F64.add_nan_left (x : F64) : F64.add F64.nan x = F64.nan := by
  cases x <;> rfl

theorem F64.mul_nan_right (x : F64) : F64.mul x F64.nan = F64.nan := by
  cases x <;> rfl

theorem F64.sub_nan_right (x : F64) : F64.sub x F64.nan = F64.nan :=
  F64.add_nan_right x

theorem F64.div_nan_right (x : F64) : F64.div x F64.nan = F64.nan := by
  cases x <;> rfl

/-- A sum of products that are all `+0` is `+0`. -/
theorem dotLoopF_zero (L : Mat F64) (r1 r2 n : Nat)
    (h : ∀ k, k < n → F64.mul (L r1 k) (L r2 k) = F64.zero) :
    dotLoopF L r1 r2 n = F64.zero := by
  induction n with
  | zero => rfl
  | succ n ih =>
    show F64.add (dotLoopF L r1 r2 n) (F64.mul (L r1 n) (L r2 n)) = F64.zero
    rw [ih (fun k hk => h k (by omega)), h n (by omega)]
    decide

/-- A sum with a NaN product is NaN. -/
theorem dotLoopF_nan (L : Mat F64) (r1 r2 k n : Nat) (hk : k < n)
    (h : F64.mul (L r1 k) (L r2 k) = F64.nan) :
    dotLoopF L r1 r2 n = F64.nan := by
  induction n with
  | zero => omega
  | succ n ih =>
    show F64.add (dotLoopF L r1 r2 n) (F64.mul (L r1 n) (L r2 n)) = F64.nan
    rcases Nat.eq_or_lt_of_le (Nat.le_of_lt_succ hk) with heq | hlt
    · rw [← heq, h, F64.add_nan_right]
    · rw [ih hlt, F64.add_nan_left]

/-! #### The input accepted by rounding -/

theorem roundingInput_symm (i j : Nat) : roundingInput i j = roundingInput j i := by
  unfold roundingInput
  split_ifs <;> first | rfl | (exfalso; omega)

theorem roundingInput_finite (i j : Nat) : (roundingInput i j).isFinite = true := by
  unfold roundingInput
  split_ifs <;> decide

theorem roundingInput_off (i j : Nat) (hij : i ≠ j) (h : 2 ≤ i ∨ 2 ≤ j) :
    roundingInput i j = F64.zero := by
  unfold roundingInput
  rw [if_neg (by omega), if_neg (by omega), if_neg (by omega), if_neg hij]

theorem roundingInput_diag (i : Nat) (h : 2 ≤ i) : roundingInput i i = F64.finite false 1 0 := by
  unfold roundingInput
  rw [if_neg (by omega), if_neg (by omega), if_neg (by omega), if_pos rfl]

theorem roundingFactor_off (r c : Nat) (hrc : r ≠ c) (h : ¬ (r = 1 ∧ c = 0)) :
    roundingFactor r c = F64.zero := by
  unfold roundingFactor
  rw [if_neg hrc, if_neg h]

theorem roundingFactor_diag (i : Nat) (h : 2 ≤ i) :
    roundingFactor i i = F64.finite false 4503599627370496 (-52) := by
  unfold roundingFactor
  rw [if_pos rfl, if_neg (by omega), if_neg (by omega)]

theorem roundingInput_symmetry_check (i j : Nat) (hij : i < j) :
    F64.lt EPSILON_F64 (F64.abs (F64.sub (roundingInput i j) (roundingInput j i))) = false := by
  by_cases h : j = 1
  · have hi : i = 0 := by omega
    subst h; subst hi
    decide
  · rw [roundingInput_off i j (by omega) (by omega), roundingInput_off j i (by omega) (by omega)]
    decide

/-- The factor `roundingFactor` is what the function computes on doubles from
`roundingInput`, and both checks pass in every column. -/
theorem crout_f64_rounding (i : Nat) (hi : i < N) : CroutColumnF roundingInput roundingFactor i := by
  rcases Nat.lt_or_ge i 2 with hlt | hge
  · rcases Nat.lt_or_ge i 1 with h0 | h1
    · -- column 0
      have hi0 : i = 0 := by omega
      subst hi0
      refine ⟨by decide, by decide, by decide, ?_, fun r hr => absurd hr (by omega)⟩
      intro r hr hrN
      by_cases h1 : r = 1
      · subst h1; decide
      · have hd0 : dotLoopF roundingFactor r 0 0 = F64.zero := rfl
        rw [hd0, roundingFactor_off r 0 (by omega) (by omega),
          roundingInput_off r 0 (by omega) (by omega)]
        decide
    · -- column 1
      have hi1 : i = 1 := by omega
      subst hi1
      refine ⟨by decide, by decide, by decide, ?_, ?_⟩
      · intro r hr hrN
        have hdot : dotLoopF roundingFactor r 1 1
            = F64.add F64.zero (F64.mul (roundingFactor r 0) (roundingFactor 1 0)) := rfl
        rw [hdot, roundingFactor_off r 1 (by omega) (by omega),
          roundingFactor_off r 0 (by omega) (by omega), roundingInput_off r 1 (by omega) (by omega)]
        decide
      · intro r hr
        exact roundingFactor_off r 1 (by omega) (by omega)
  · -- columns 2 .. 31
    have hdot : ∀ r, i ≤ r → dotLoopF roundingFactor r i i = F64.zero := by
      intro r hr
      apply dotLoopF_zero
      intro k hk
      rw [roundingFactor_off r k (by omega) (by omega), roundingFactor_off i k (by omega) (by omega)]
      decide
    refine ⟨?_, ?_, ?_, ?_, ?_⟩
    · rw [hdot i le_rfl, roundingInput_diag i hge]; decide
    · rw [hdot i le_rfl, roundingInput_diag i hge, roundingFactor_diag i hge]; decide
    · rw [roundingFactor_diag i hge]; decide
    · intro r hr hrN
      rw [hdot r (le_of_lt hr), roundingFactor_diag i hge,
        roundingFactor_off r i (by omega) (by omega), roundingInput_off r i (by omega) (by omega)]
      decide
    · intro r hr
      exact roundingFactor_off r i (by omega) (by omega)

/-- On doubles the call on `roundingInput` returns 0 and the output is `roundingFactor`. -/
theorem decompose_f64_rounding (L : Mat F64) :
    (cholesky_decompose_32x32_f64 roundingInput L).1 = 0 ∧
    ∀ r, r < N → ∀ c, c < N →
      (cholesky_decompose_32x32_f64 roundingInput L).2 r c = roundingFactor r c :=
  decompose_f64_run roundingInput roundingFactor L
    (fun i j hij _ => roundingInput_symmetry_check i j hij) crout_f64_rounding

/-! #### The input accepted through an overflow -/

theorem overflowInput_symm (i j : Nat) : overflowInput i j = overflowInput j i := by
  unfold overflowInput
  split_ifs <;> first | rfl | (exfalso; omega)

theorem overflowInput_finite (i j : Nat) : (overflowInput i j).isFinite = true := by
  unfold overflowInput
  split_ifs <;> decide

theorem overflowInput_off (i j : Nat) (hij : i ≠ j) (h : ¬ (i = 0 ∧ j = 2)) (h' : ¬ (i = 2 ∧ j = 0)) :
    overflowInput i j = F64.zero := by
  unfold overflowInput
  rw [if_neg (by omega), if_neg (by omega), if_neg (by omega), if_neg hij]

theorem overflowFactor_above (r c : Nat) (h : r < c) : overflowFactor r c = F64.zero := by
  unfold overflowFactor
  rw [if_pos h]

theorem overflowFactor_col0 (r : Nat) (h0 : r ≠ 0) (h2 : r ≠ 2) : overflowFactor r 0 = F64.zero := by
  unfold overflowFactor
  rw [if_neg (by omega), if_pos rfl, if_neg h0, if_neg h2]

theorem overflowFactor_col1 (r : Nat) (h1 : r ≠ 1) (h2 : r ≠ 2) : overflowFactor r 1 = F64.zero := by
  unfold overflowFactor
  by_cases h : r < 1
  · rw [if_pos h]
  · rw [if_neg h, if_neg (by omega), if_pos rfl, if_neg h1, if_neg h2]

theorem overflowFactor_nan (r c : Nat) (hc : 2 ≤ c) (hrc : c ≤ r) : overflowFactor r c = F64.nan := by
  unfold overflowFactor
  rw [if_neg (by omega), if_neg (by omega), if_neg (by omega)]

theorem overflowInput_symmetry_check (i j : Nat) (hij : i < j) :
    F64.lt EPSILON_F64 (F64.abs (F64.sub (overflowInput i j) (overflowInput j i))) = false := by
  by_cases h : i = 0 ∧ j = 2
  · obtain ⟨hi, hj⟩ := h
    subst hi; subst hj
    decide
  · rw [overflowInput_off i j (by omega) h (by omega),
      overflowInput_off j i (by omega) (by omega) (by omega)]
    decide

/-- From column 2 on, every sum of the trace has the NaN product of column 2. -/
theorem overflowFactor_dot_nan (r i : Nat) (hi : 3 ≤ i) (hr : i ≤ r) :
    dotLoopF overflowFactor r i i = F64.nan := by
  apply dotLoopF_nan overflowFactor r i 2 i (by omega)
  rw [overflowFactor_nan r 2 le_rfl (by omega), overflowFactor_nan i 2 le_rfl (by omega)]
  rfl

/-- The buffer `overflowFactor` is what the function computes on doubles from
`overflowInput`, and both checks pass in every column: from column 2 on the
pivot is a NaN, which is neither `<= EPSILON` nor, after `sqrt` and `fabs`,
`< EPSILON`. -/
theorem crout_f64_overflow (i : Nat) (hi : i < N) : CroutColumnF overflowInput overflowFactor i := by
  rcases Nat.lt_or_ge i 3 with hlt | hge
  · rcases Nat.lt_or_ge i 1 with h0 | h1
    · -- column 0
      have hi0 : i = 0 := by omega
      subst hi0
      refine ⟨by decide, by decide, by decide, ?_, fun r hr => absurd hr (by omega)⟩
      intro r hr hrN
      have hd0 : dotLoopF overflowFactor r 0 0 = F64.zero := rfl
      by_cases h2 : r = 2
      · subst h2; decide
      · rw [hd0, overflowFactor_col0 r (by omega) h2,
          overflowInput_off r 0 (by omega) (by omega) (by omega)]
        decide
    · rcases Nat.lt_or_ge i 2 with h1' | h2
      · -- column 1
        have hi1 : i = 1 := by omega
        subst hi1
        refine ⟨by decide, by decide, by decide, ?_, ?_⟩
        · intro r hr hrN
          by_cases h2 : r = 2
          · subst h2; decide
          · have hdot : dotLoopF overflowFactor r 1 1
                = F64.add F64.zero (F64.mul (overflowFactor r 0) (overflowFactor 1 0)) := rfl
            rw [hdot, overflowFactor_col1 r (by omega) h2, overflowFactor_col0 r (by omega) h2,
              overflowInput_off r 1 (by omega) (by omega) (by omega)]
            decide
        · intro r hr
          exact overflowFactor_above r 1 hr
      · -- column 2
        have hi2 : i = 2 := by omega
        subst hi2
        have hdot : ∀ r, dotLoopF overflowFactor r 2 2 = F64.nan := by
          intro r
          apply dotLoopF_nan overflowFactor r 2 1 2 (by omega)
          have h21 : overflowFactor 2 1 = F64.nan := by decide
          rw [h21, F64.mul_nan_right]
        refine ⟨?_, ?_, ?_, ?_, ?_⟩
        · rw [hdot 2, F64.sub_nan_right]; rfl
        · rw [hdot 2, F64.sub_nan_right, overflowFactor_nan 2 2 le_rfl le_rfl]; rfl
        · rw [overflowFactor_nan 2 2 le_rfl le_rfl]; rfl
        · intro r hr hrN
          rw [overflowFactor_nan 2 2 le_rfl le_rfl, overflowFactor_nan r 2 le_rfl (by omega),
            F64.div_nan_right]
        · intro r hr
          exact overflowFactor_above r 2 hr
  · -- columns 3 .. 31
    refine ⟨?_, ?_, ?_, ?_, ?_⟩
    · rw [overflowFactor_dot_nan i i hge le_rfl, F64.sub_nan_right]; rfl
    · rw [overflowFactor_dot_nan i i hge le_rfl, F64.sub_nan_right,
        overflowFactor_nan i i (by omega) le_rfl]; rfl
    · rw [overflowFactor_nan i i (by omega) le_rfl]; rfl
    · intro r hr hrN
      rw [overflowFactor_nan i i (by omega) le_rfl, overflowFactor_nan r i (by omega) (by omega),
        F64.div_nan_right]
    · intro r hr
      exact overflowFactor_above r i hr

/-- On doubles the call on `overflowInput` returns 0 and the output is `overflowFactor`. -/
theorem decompose_f64_overflow (L : Mat F64) :
    (cholesky_decompose_32x32_f64 overflowInput L).1 = 0 ∧
    ∀ r, r < N → ∀ c, c < N →
      (cholesky_decompose_32x32_f64 overflowInput L).2 r c = overflowFactor r c :=
  decompose_f64_run overflowInput overflowFactor L
    (fun i j hij _ => overflowInput_symmetry_check i j hij) crout_f64_overflow

/-! #### The exact values of the two inputs -/

theorem valueMatrix_rounding_00 : (valueMatrix roundingInput : Mat ℝ) 0 0 = 9 := by
  simp [valueMatrix, roundingInput, F64.toRat]

theorem valueMatrix_rounding_10 : (valueMatrix roundingInput : Mat ℝ) 1 0 = 2000003 := by
  simp [valueMatrix, roundingInput, F64.toRat]

theorem valueMatrix_rounding_01 : (valueMatrix roundingInput : Mat ℝ) 0 1 = 2000003 := by
  simp [valueMatrix, roundingInput, F64.toRat]

theorem valueMatrix_rounding_11 :
    (valueMatrix roundingInput : Mat ℝ) 1 1 = 7281799623127495 / 16384 := by
  simp [valueMatrix, roundingInput, F64.toRat]
  norm_num

theorem valueMatrix_symm (A : Mat F64) (h : ∀ i j, A i j = A j i) (i j : Nat) :
    (valueMatrix A : Mat α) i j = valueMatrix A j i := by
  unfold valueMatrix
  rw [h i j]

/-- The leading 2×2 minor of the exact values of `roundingInput` is `-1/16384`. -/
theorem leadingMinor_rounding :
    leadingMinor (valueMatrix roundingInput : Mat ℝ) 1 = -1 / 16384 := by
  unfold leadingMinor
  rw [Matrix.det_fin_two]
  simp only [Matrix.of_apply]
  show (valueMatrix roundingInput : Mat ℝ) 0 0 * valueMatrix roundingInput 1 1
    - valueMatrix roundingInput 0 1 * valueMatrix roundingInput 1 0 = -1 / 16384
  rw [valueMatrix_rounding_00, valueMatrix_rounding_11, valueMatrix_rounding_01,
    valueMatrix_rounding_10]
  norm_num

/-- The reference pivot of column 1 of the exact values of `roundingInput` is
`-1/147456`. -/
theorem croutPivot_rounding :
    croutPivot Real.sqrt (valueMatrix roundingInput) 1 = -1 / 147456 := by
  have h00 : croutReference Real.sqrt (valueMatrix roundingInput) 0 0 = 3 := by
    rw [croutReference_diag]
    unfold croutPivot
    rw [Finset.univ_eq_empty, Finset.sum_empty, sub_zero, valueMatrix_rounding_00,
      show (9 : ℝ) = 3 * 3 by norm_num, Real.sqrt_mul_self (by norm_num)]
  have h10 : croutReference Real.sqrt (valueMatrix roundingInput) 1 0 = 2000003 / 3 := by
    rw [croutReference_below _ _ 1 0 (by norm_num), h00, Finset.univ_eq_empty, Finset.sum_empty,
      sub_zero, valueMatrix_rounding_10]
  unfold croutPivot
  rw [Fin.sum_univ_one]
  show valueMatrix roundingInput 1 1
    - croutReference Real.sqrt (valueMatrix roundingInput) 1 0 ^ 2 = -1 / 147456
  rw [h10, valueMatrix_rounding_11]
  norm_num

theorem valueMatrix_overflow_22 : (valueMatrix overflowInput : Mat ℝ) 2 2 = -5 := by
  simp [valueMatrix, overflowInput, F64.toRat]

/-! ### The claims that fail on doubles -/

/-- C4 as stated fails on the code: `roundingInput` is a matrix of finite doubles,
exactly symmetric, whose leading 2×2 minor is not positive, and on IEEE doubles
the call returns 0, not 2, whatever the output buffer held. -/
theorem non_spd_rejection_counterexample :
    (∀ i j, (roundingInput i j).isFinite = true) ∧
    (∀ i j, (valueMatrix roundingInput : Mat ℝ) i j = valueMatrix roundingInput j i) ∧
    leadingMinor (valueMatrix roundingInput : Mat ℝ) 1 ≤ 0 ∧
    ∀ L0, (cholesky_decompose_32x32_f64 roundingInput L0).1 = 0 := by
  refine ⟨roundingInput_finite, valueMatrix_symm roundingInput roundingInput_symm, ?_,
    fun L0 => (decompose_f64_rounding L0).1⟩
  rw [leadingMinor_rounding]
  norm_num

/-- C13 as stated fails on the code: the exact values of `roundingInput` pass the
symmetry check and their reference pivot `p_1` is not above 1e-10, and on IEEE
doubles the call returns 0, not 2, whatever the output buffer held. -/
theorem crout_reference_agreement_counterexample :
    (∀ i j, (roundingInput i j).isFinite = true) ∧
    (∀ i j, i < j → j < 32 →
      |(valueMatrix roundingInput : Mat ℝ) i j - valueMatrix roundingInput j i| ≤ 1e-10) ∧
    croutPivot Real.sqrt (valueMatrix roundingInput) 1 ≤ 1e-10 ∧
    ∀ L0, (cholesky_decompose_32x32_f64 roundingInput L0).1 = 0 := by
  refine ⟨roundingInput_finite, ?_, ?_, fun L0 => (decompose_f64_rounding L0).1⟩
  · intro i j _ _
    rw [valueMatrix_symm roundingInput roundingInput_symm i j, sub_self, abs_zero]
    norm_num
  · rw [croutPivot_rounding]
    norm_num

/-- C14 fails on the code at `overflowInput`: a matrix of finite doubles, exactly
symmetric, with `A[2][2] = -5`; on IEEE doubles the call returns 0, not 2,
whatever the output buffer held, and leaves NaN on and below the diagonal from
column 2 on (`L[2][0]` overflows to `+inf`, `L[2][1] = inf * 0` is a NaN, and a
NaN pivot is not `<= EPSILON`). -/
theorem small_diagonal_accepted_on_overflow :
    (∀ i j, (overflowInput i j).isFinite = true) ∧
    (∀ i j, overflowInput i j = overflowInput j i) ∧
    (valueMatrix overflowInput : Mat ℝ) 2 2 = -5 ∧
    ∀ L0, (cholesky_decompose_32x32_f64 overflowInput L0).1 = 0 ∧
      ∀ r c, 2 ≤ c → c ≤ r → r < 32 →
        (cholesky_decompose_32x32_f64 overflowInput L0).2 r c = F64.nan := by
  refine ⟨overflowInput_finite, overflowInput_symm, valueMatrix_overflow_22, fun L0 => ?_⟩
  have h := decompose_f64_overflow L0
  refine ⟨h.1, fun r c hc hcr hr => ?_⟩
  rw [h.2 r hr c (lt_of_le_of_lt hcr hr)]
  exact overflowFactor_nan r c hc hcr

end Cholesky
